import Mathlib

/-!
Verification development for the Vacuum-World repository.

The Python source is shallowly embedded: positions and grid sizes are `Int`
(Python ints), sets of cells are `Finset (Int × Int)`, Python dicts are
association lists in insertion order, and the `heapq` priority queue is a
list kept sorted by the lexicographic `(key, counter)` order that the Python
tuples are compared by (the counters are unique, so comparison never reaches
the later tuple components).  Wall-clock time is not computable in the
embedding; the check `time.time() - start_time > MAX_TIME_SECONDS` performed
at the top of each loop iteration is modelled by an oracle
`tmo : Nat → Bool` giving the verdict of the k-th check.  Loops are embedded
as step functions iterated with fuel; all statements about a run are proved
for every fuel value.
-/

namespace VW

/-- A grid cell / robot position, a pair of Python ints. -/
abbrev Pos := Int × Int

/-- Embeds `Action` from `app/models/state.py`: the five robot actions. -/
inductive Action where
  | up
  | down
  | left
  | right
  | suck
deriving DecidableEq, Repr

/-- Embeds `State` from `app/models/state.py`: robot position plus the
frozenset of dirty cells.  Equality is value equality on both fields,
exactly as `State.__eq__` defines it. -/
structure State where
  robot_pos : Pos
  dirt_set : Finset Pos
deriving DecidableEq

/-- Embeds `State.is_goal`: no dirt left. -/
def State.is_goal (s : State) : Bool :=
  s.dirt_set.card = 0

/-- The predicate `0 <= x < grid_size and 0 <= y < grid_size` used by the
bounds checks in `vacuum_world.py`. -/
def InB (g : Int) (p : Pos) : Prop :=
  0 ≤ p.1 ∧ p.1 < g ∧ 0 ≤ p.2 ∧ p.2 < g

instance (g : Int) (p : Pos) : Decidable (InB g p) := by
  unfold InB
  infer_instance

/-- Embeds the candidate move list of `VacuumWorld.get_successors`
(`moves = [(UP,(x,y-1)), (DOWN,(x,y+1)), (LEFT,(x-1,y)), (RIGHT,(x+1,y))]`). -/
def moveCandidates (s : State) : List (Action × Pos) :=
  [(Action.up, (s.robot_pos.1, s.robot_pos.2 - 1)),
   (Action.down, (s.robot_pos.1, s.robot_pos.2 + 1)),
   (Action.left, (s.robot_pos.1 - 1, s.robot_pos.2)),
   (Action.right, (s.robot_pos.1 + 1, s.robot_pos.2))]

/-- Embeds the static method `VacuumWorld.get_successors`: in-bounds moves in
the order Up, Down, Left, Right, then Suck when the current cell is dirty. -/
def get_successors (s : State) (grid_size : Int) : List (Action × State) :=
  let msucc := ((moveCandidates s).filter (fun m => decide (InB grid_size m.2))).map
    (fun m => (m.1, State.mk m.2 s.dirt_set))
  if s.robot_pos ∈ s.dirt_set then
    msucc ++ [(Action.suck, State.mk s.robot_pos (s.dirt_set.erase s.robot_pos))]
  else
    msucc

/-- A total order on positions used to enumerate a `Finset Pos` the way a
Python `for ... in set` loop enumerates it in some fixed order (the Python
iteration order is unspecified; the embedding fixes the lexicographic one). -/
def posLe (p q : Pos) : Prop :=
  p.1 < q.1 ∨ (p.1 = q.1 ∧ p.2 ≤ q.2)

instance : DecidableRel posLe := by
  intro p q
  unfold posLe
  infer_instance

instance : IsTrans Pos posLe := by
  constructor
  intro a b c hab hbc
  rcases hab with h1 | ⟨h1, h1'⟩ <;> rcases hbc with h2 | ⟨h2, h2'⟩ <;> unfold posLe <;> omega

instance : IsAntisymm Pos posLe := by
  constructor
  intro a b hab hba
  have : a.1 = b.1 ∧ a.2 = b.2 := by
    rcases hab with h1 | ⟨h1, h1'⟩ <;> rcases hba with h2 | ⟨h2, h2'⟩ <;> omega
  calc a = (a.1, a.2) := rfl
    _ = (b.1, b.2) := by rw [this.1, this.2]
    _ = b := rfl

instance : IsTotal Pos posLe := by
  constructor
  intro a b
  unfold posLe
  omega

/-- Enumeration of a set of cells, standing in for Python set iteration. -/
def dirtList (d : Finset Pos) : List Pos :=
  d.sort posLe

/-- Embeds `SearchAlgorithms.heuristic`: with a non-empty dirt set the Python
loop computes the minimum Manhattan distance over the set (starting from
`float('inf')`, so the fold over the iteration order below is the same value)
and adds `len(dirt_set) - 1`. -/
def manhattan (p q : Pos) : Int :=
  (p.1 - q.1).natAbs + (p.2 - q.2).natAbs

/-- Embeds the body of `SearchAlgorithms.heuristic` from
`search_algorithms.py` (grid size is unused by the Python code as well). -/
def heuristic (s : State) (grid_size : Int) : Int :=
  match (dirtList s.dirt_set).map (fun d => manhattan s.robot_pos d) with
  | [] => 0
  | d :: ds => ds.foldl min d + s.dirt_set.card - 1

lemma suck_not_mem_moveCandidates (s : State) (p : Pos) :
    (Action.suck, p) ∉ moveCandidates s := by
  simp [moveCandidates]

lemma mem_moveCandidates_robot (s : State) (a : Action) (p : Pos) :
    (a, p) ∈ moveCandidates s → ∃ q : Pos, p = q := by
  intro _
  exact ⟨p, rfl⟩

/-- Characterization of membership in `get_successors`. -/
lemma mem_get_successors (s : State) (g : Int) (a : Action) (t : State) :
    (a, t) ∈ get_successors s g ↔
      ((a, t.robot_pos) ∈ moveCandidates s ∧ InB g t.robot_pos ∧ t.dirt_set = s.dirt_set) ∨
      (a = Action.suck ∧ s.robot_pos ∈ s.dirt_set ∧
        t = State.mk s.robot_pos (s.dirt_set.erase s.robot_pos)) := by
  cases t with
  | mk tp td =>
    unfold get_successors
    by_cases hd : s.robot_pos ∈ s.dirt_set <;>
      simp only [hd, if_pos, if_neg, not_false_iff, List.mem_append, List.mem_map,
        List.mem_filter, List.mem_singleton, Prod.mk.injEq, decide_eq_true_eq,
        State.mk.injEq] <;>
      aesop

/-- CLAIM C4: whenever the agent position is inside the grid, every
(action, next state) pair returned by `get_successors` keeps the agent
inside the grid, and the returned list contains a Suck pair iff the
current cell is dirty. -/
theorem c4_successors_safe (s : State) (g : Int) (h : InB g s.robot_pos) :
    (∀ a t, (a, t) ∈ get_successors s g → InB g t.robot_pos) ∧
    ((∃ t, (Action.suck, t) ∈ get_successors s g) ↔ s.robot_pos ∈ s.dirt_set) := by
  constructor
  · intro a t hmem
    rcases (mem_get_successors s g a t).1 hmem with ⟨_, hb, _⟩ | ⟨_, _, ht⟩
    · exact hb
    · subst ht
      exact h
  · constructor
    · rintro ⟨t, hmem⟩
      rcases (mem_get_successors s g Action.suck t).1 hmem with ⟨hm, _, _⟩ | ⟨_, hd, _⟩
      · exact absurd hm (suck_not_mem_moveCandidates s t.robot_pos)
      · exact hd
    · intro hd
      refine ⟨State.mk s.robot_pos (s.dirt_set.erase s.robot_pos), ?_⟩
      exact (mem_get_successors s g Action.suck _).2 (Or.inr ⟨rfl, hd, rfl⟩)

/-- Concrete state used by witnesses: a 2-by-2 board with the agent on a
dirty corner. -/
def wSt : State :=
  State.mk ((0 : Int), (0 : Int)) {((0 : Int), (0 : Int))}

/-- Witness for C4 at a concrete input. -/
theorem c4_successors_safe_witness :
    InB 2 wSt.robot_pos ∧
    ((∀ a t, (a, t) ∈ get_successors wSt 2 → InB 2 t.robot_pos) ∧
     ((∃ t, (Action.suck, t) ∈ get_successors wSt 2) ↔ wSt.robot_pos ∈ wSt.dirt_set)) := by
  exact ⟨by decide, c4_successors_safe wSt 2 (by decide)⟩

lemma foldl_min_le_init (l : List Int) (d : Int) : l.foldl min d ≤ d := by
  induction l generalizing d with
  | nil => simp
  | cons x xs ih =>
    calc (x :: xs).foldl min d = xs.foldl min (min d x) := rfl
      _ ≤ min d x := ih (min d x)
      _ ≤ d := min_le_left _ _

lemma foldl_min_le_mem (l : List Int) (d : Int) : ∀ x ∈ l, l.foldl min d ≤ x := by
  induction l generalizing d with
  | nil => simp
  | cons y ys ih =>
    intro x hx
    rcases List.mem_cons.1 hx with h | h
    · rw [h]
      calc (y :: ys).foldl min d = ys.foldl min (min d y) := rfl
        _ ≤ min d y := foldl_min_le_init ys (min d y)
        _ ≤ y := min_le_right _ _
    · exact ih (min d y) x h

lemma foldl_min_mem (l : List Int) (d : Int) : l.foldl min d = d ∨ l.foldl min d ∈ l := by
  induction l generalizing d with
  | nil => simp
  | cons y ys ih =>
    rcases ih (min d y) with h | h
    · rcases min_cases d y with ⟨he, _⟩ | ⟨he, _⟩
      · left
        calc (y :: ys).foldl min d = ys.foldl min (min d y) := rfl
          _ = min d y := h
          _ = d := he
      · right
        refine List.mem_cons.2 (Or.inl ?_)
        calc (y :: ys).foldl min d = ys.foldl min (min d y) := rfl
          _ = min d y := h
          _ = y := he
    · right
      exact List.mem_cons.2 (Or.inr h)

/-- CLAIM C9: the heuristic equals 0 on an empty dirt set and otherwise
equals the minimum Manhattan distance to a dirty cell plus the number of
dirty cells minus one. -/
theorem c9_heuristic_eq (s : State) (g : Int) :
    (s.dirt_set = ∅ → heuristic s g = 0) ∧
    (∀ h : s.dirt_set.Nonempty,
      heuristic s g = s.dirt_set.inf' h (manhattan s.robot_pos) + s.dirt_set.card - 1) := by
  constructor
  · intro he
    unfold heuristic dirtList
    rw [he]
    simp
  · intro hne
    unfold heuristic dirtList
    have hsort : (s.dirt_set.sort posLe) ≠ [] := by
      intro hnil
      rcases hne with ⟨x, hx⟩
      have := (Finset.mem_sort (α := Pos) posLe).2 hx
      rw [hnil] at this
      exact absurd this (List.not_mem_nil x)
    rcases hl : s.dirt_set.sort posLe with _ | ⟨p0, ps⟩
    · exact absurd hl hsort
    · simp only [List.map_cons]
      have hmem_iff : ∀ q : Pos, q ∈ s.dirt_set.sort posLe ↔ q ∈ s.dirt_set := by
        intro q
        exact Finset.mem_sort posLe
      have hp0 : p0 ∈ s.dirt_set := by
        rw [← hmem_iff p0, hl]
        exact List.mem_cons_self _ _
      have hps : ∀ q ∈ ps, q ∈ s.dirt_set := by
        intro q hq
        rw [← hmem_iff q, hl]
        exact List.mem_cons.2 (Or.inr hq)
      set v := (ps.map (fun d => manhattan s.robot_pos d)).foldl min (manhattan s.robot_pos p0) with hv
      have hle : s.dirt_set.inf' hne (manhattan s.robot_pos) ≤ v := by
        rcases foldl_min_mem (ps.map (fun d => manhattan s.robot_pos d)) (manhattan s.robot_pos p0) with h | h
        · rw [← hv] at h
          rw [h]
          exact Finset.inf'_le _ hp0
        · rw [← hv] at h
          rcases List.mem_map.1 h with ⟨q, hq, hvq⟩
          rw [← hvq]
          exact Finset.inf'_le _ (hps q hq)
      have hge : v ≤ s.dirt_set.inf' hne (manhattan s.robot_pos) := by
        rcases Finset.exists_mem_eq_inf' hne (manhattan s.robot_pos) with ⟨q, hq, hinf⟩
        rw [hinf]
        have hq' : q ∈ s.dirt_set.sort posLe := (hmem_iff q).2 hq
        rw [hl] at hq'
        rcases List.mem_cons.1 hq' with h | h
        · subst h
          exact foldl_min_le_init _ _
        · exact foldl_min_le_mem _ _ _ (List.mem_map.2 ⟨q, h, rfl⟩)
      have : v = s.dirt_set.inf' hne (manhattan s.robot_pos) := le_antisymm hge hle
      rw [this]

/-- Concrete state used by the C9 witness: two dirty cells. -/
def c9St : State :=
  State.mk ((0 : Int), (0 : Int)) {((1 : Int), (1 : Int)), ((0 : Int), (2 : Int))}

/-- Witness for C9 at a concrete input. -/
theorem c9_heuristic_eq_witness :
    heuristic c9St 3 =
      c9St.dirt_set.inf' (by decide) (manhattan c9St.robot_pos) + c9St.dirt_set.card - 1 := by
  exact (c9_heuristic_eq c9St 3).2 (by decide)

/-- Embeds the inner `for act, next_state in successors: if act == action:
... break` loop of `VacuumWorld.get_state_path`: the first successor whose
action matches. -/
def matchAction : List (Action × State) → Action → Option State
  | [], _ => none
  | (act, t) :: rest, a => if act = a then some t else matchAction rest a

/-- Embeds the loop body of `VacuumWorld.get_state_path`: one appended state
per action, repeating the current state when no successor matches. -/
def get_state_path_aux (g : Int) : State → List Action → List State
  | _, [] => []
  | cur, a :: rest =>
    match matchAction (get_successors cur g) a with
    | some t => t :: get_state_path_aux g t rest
    | none => cur :: get_state_path_aux g cur rest

/-- Embeds `VacuumWorld.get_state_path` (with an explicit start state; the
Python default `start_state=None` just passes the current world state). -/
def get_state_path (g : Int) (path : List Action) (start : State) : List State :=
  start :: get_state_path_aux g start path

/-- Specification-side single step: the successor state matching the action,
or the unchanged state when the action matches no successor. -/
def specStep (g : Int) (s : State) (a : Action) : State :=
  (matchAction (get_successors s g) a).getD s

lemma get_state_path_aux_cons (g : Int) (cur : State) (a : Action) (rest : List Action) :
    get_state_path_aux g cur (a :: rest) =
      match matchAction (get_successors cur g) a with
      | some t => t :: get_state_path_aux g t rest
      | none => cur :: get_state_path_aux g cur rest := rfl

lemma get_state_path_aux_scanl (g : Int) (p : List Action) :
    ∀ cur : State, cur :: get_state_path_aux g cur p = List.scanl (specStep g) cur p := by
  induction p with
  | nil => intro cur; simp [get_state_path_aux, List.scanl]
  | cons a rest ih =>
    intro cur
    rcases hm : matchAction (get_successors cur g) a with _ | t
    · have hstep : specStep g cur a = cur := by
        unfold specStep
        rw [hm]
        rfl
      rw [List.scanl_cons, hstep, ← ih cur, get_state_path_aux_cons, hm]
      simp
    · have hstep : specStep g cur a = t := by
        unfold specStep
        rw [hm]
        rfl
      rw [List.scanl_cons, hstep, ← ih t, get_state_path_aux_cons, hm]
      simp

/-- CLAIM C8: `get_state_path` returns exactly `len(path) + 1` states, the
first being the start state, and each following state is the successor
matching the action — or a repeat of the prior state when the action matches
no successor (the silent fallback), never a failure. -/
theorem c8_get_state_path (g : Int) (p : List Action) (s : State) :
    get_state_path g p s = List.scanl (specStep g) s p ∧
    (get_state_path g p s).length = p.length + 1 ∧
    (get_state_path g p s).head? = some s := by
  have h := get_state_path_aux_scanl g p s
  refine ⟨h, ?_, rfl⟩
  unfold get_state_path
  rw [h]
  exact List.length_scanl _ _

/-- Embeds the `VacuumWorld` environment class of `app/core/vacuum_world.py`
(the mutable fields; the grid size, robot position and dirt set are the ones
the C10 invariant concerns). -/
structure VacuumWorld where
  grid_size : Int
  robot_pos : Pos
  dirt_set : Finset Pos
  action_history : List Action
  path_history : List Pos
  total_cost : Int
  performance_points : Int
deriving DecidableEq

/-- Embeds `MIN_GRID_SIZE`. -/
def MIN_GRID_SIZE : Int := 2

/-- Embeds `MAX_GRID_SIZE`. -/
def MAX_GRID_SIZE : Int := 10

/-- Embeds `VacuumWorld.__init__`. -/
def mkVacuumWorld (g : Int) : VacuumWorld :=
  VacuumWorld.mk g (0, 0) ∅ [] [] 0 0

/-- Embeds `VacuumWorld.reset`. -/
def VacuumWorld.reset (w : VacuumWorld) : VacuumWorld :=
  { w with robot_pos := (0, 0), dirt_set := ∅, action_history := [],
           path_history := [(0, 0)], total_cost := 0, performance_points := 0 }

/-- Embeds `VacuumWorld.set_robot_position`. -/
def VacuumWorld.set_robot_position (w : VacuumWorld) (p : Pos) : VacuumWorld :=
  if InB w.grid_size p then
    { w with robot_pos := p, path_history := [p], performance_points := 0 }
  else w

/-- Embeds `VacuumWorld.add_dirt`. -/
def VacuumWorld.add_dirt (w : VacuumWorld) (p : Pos) : VacuumWorld :=
  if InB w.grid_size p then { w with dirt_set := insert p w.dirt_set } else w

/-- Embeds `VacuumWorld.remove_dirt`. -/
def VacuumWorld.remove_dirt (w : VacuumWorld) (p : Pos) : VacuumWorld :=
  { w with dirt_set := w.dirt_set.erase p }

/-- Embeds `VacuumWorld.toggle_dirt`. -/
def VacuumWorld.toggle_dirt (w : VacuumWorld) (p : Pos) : VacuumWorld :=
  if p ∈ w.dirt_set then w.remove_dirt p else w.add_dirt p

/-- Embeds `VacuumWorld.random_dirt`; the outcome of each
`random.random() < probability` draw is an oracle `coins`. -/
def VacuumWorld.random_dirt (w : VacuumWorld) (coins : Pos → Bool) : VacuumWorld :=
  { w with
    dirt_set := ((Finset.Icc (0 : Int) (w.grid_size - 1)) ×ˢ
      (Finset.Icc (0 : Int) (w.grid_size - 1))).filter (fun p => coins p = true),
    performance_points := 0 }

/-- Embeds `VacuumWorld.execute_action`, returning the updated world and the
goal flag the Python method returns. -/
def VacuumWorld.execute_action (w : VacuumWorld) (a : Action) : VacuumWorld × Bool :=
  let x := w.robot_pos.1
  let y := w.robot_pos.2
  let newPos : Pos :=
    match a with
    | Action.up => (x, max 0 (y - 1))
    | Action.down => (x, min (w.grid_size - 1) (y + 1))
    | Action.left => (max 0 (x - 1), y)
    | Action.right => (min (w.grid_size - 1) (x + 1), y)
    | Action.suck => (x, y)
  let sucked : Bool := a = Action.suck ∧ w.robot_pos ∈ w.dirt_set
  let dirt' := if sucked then w.dirt_set.erase w.robot_pos else w.dirt_set
  let points : Int := if sucked then 9 else -1
  let path' := if newPos ≠ w.robot_pos then w.path_history ++ [newPos] else w.path_history
  ({ w with robot_pos := newPos, dirt_set := dirt',
            action_history := w.action_history ++ [a], path_history := path',
            total_cost := w.total_cost + 1,
            performance_points := w.performance_points + points },
   decide (dirt'.card = 0))

/-- Embeds `VacuumWorld.set_grid_size`. -/
def VacuumWorld.set_grid_size (w : VacuumWorld) (size : Int) : VacuumWorld :=
  let g' := max MIN_GRID_SIZE (min MAX_GRID_SIZE size)
  let dirt' := w.dirt_set.filter (fun p => p.1 < g' ∧ p.2 < g')
  let robot' : Pos := (min w.robot_pos.1 (g' - 1), min w.robot_pos.2 (g' - 1))
  { w with grid_size := g', dirt_set := dirt', robot_pos := robot',
           path_history := [robot'] }

/-- The C10 invariant: robot inside the grid and all dirt inside the grid. -/
def WInv (w : VacuumWorld) : Prop :=
  InB w.grid_size w.robot_pos ∧ ∀ p ∈ w.dirt_set, InB w.grid_size p

/-- CLAIM C10: every public mutator of `VacuumWorld` preserves the invariant
that the robot position and all dirty cells lie inside the grid. -/
theorem c10_mutators_preserve_inv (w : VacuumWorld) (p : Pos) (coins : Pos → Bool)
    (a : Action) (n : Int) (hw : WInv w) :
    WInv w.reset ∧ WInv (w.set_robot_position p) ∧ WInv (w.add_dirt p) ∧
    WInv (w.toggle_dirt p) ∧ WInv (w.random_dirt coins) ∧
    WInv (w.execute_action a).1 ∧ WInv (w.set_grid_size n) := by
  obtain ⟨⟨hx0, hx1, hy0, hy1⟩, hdirt⟩ := hw
  refine ⟨?_, ?_, ?_, ?_, ?_, ?_, ?_⟩
  · refine ⟨⟨le_refl 0, ?_, le_refl 0, ?_⟩, by simp [VacuumWorld.reset]⟩
    · change (0 : Int) < w.grid_size
      omega
    · change (0 : Int) < w.grid_size
      omega
  · unfold VacuumWorld.set_robot_position
    split
    · next hin => exact ⟨hin, hdirt⟩
    · exact ⟨⟨hx0, hx1, hy0, hy1⟩, hdirt⟩
  · unfold VacuumWorld.add_dirt
    split
    · next hin =>
      refine ⟨⟨hx0, hx1, hy0, hy1⟩, ?_⟩
      intro q hq
      rcases Finset.mem_insert.1 hq with h | h
      · exact h ▸ hin
      · exact hdirt q h
    · exact ⟨⟨hx0, hx1, hy0, hy1⟩, hdirt⟩
  · unfold VacuumWorld.toggle_dirt
    split
    · refine ⟨⟨hx0, hx1, hy0, hy1⟩, ?_⟩
      intro q hq
      exact hdirt q (Finset.mem_of_mem_erase hq)
    · unfold VacuumWorld.add_dirt
      split
      · next hin =>
        refine ⟨⟨hx0, hx1, hy0, hy1⟩, ?_⟩
        intro q hq
        rcases Finset.mem_insert.1 hq with h | h
        · exact h ▸ hin
        · exact hdirt q h
      · exact ⟨⟨hx0, hx1, hy0, hy1⟩, hdirt⟩
  · refine ⟨⟨hx0, hx1, hy0, hy1⟩, ?_⟩
    intro q hq
    unfold VacuumWorld.random_dirt at hq
    simp only [Finset.mem_filter, Finset.mem_product, Finset.mem_Icc] at hq
    change InB w.grid_size q
    obtain ⟨⟨⟨ha, hb⟩, hc, hd⟩, _⟩ := hq
    exact ⟨ha, by omega, hc, by omega⟩
  · unfold VacuumWorld.execute_action
    refine ⟨?_, ?_⟩
    · cases a <;> simp only [] <;>
        exact ⟨by omega, by omega, by omega, by omega⟩
    · intro q hq
      simp only [] at hq
      split at hq
      · exact hdirt q (Finset.mem_of_mem_erase hq)
      · exact hdirt q hq
  · unfold VacuumWorld.set_grid_size
    refine ⟨?_, ?_⟩
    · simp only [MIN_GRID_SIZE, MAX_GRID_SIZE]
      exact ⟨by omega, by omega, by omega, by omega⟩
    · intro q hq
      simp only [Finset.mem_filter] at hq
      obtain ⟨hq1, hq2, hq3⟩ := hq
      obtain ⟨h1, _, h3, _⟩ := hdirt q hq1
      exact ⟨h1, hq2, h3, hq3⟩

/-- Concrete world used by the C10 witness. -/
def wWorld : VacuumWorld :=
  VacuumWorld.mk 3 (1, 1) {((0 : Int), (0 : Int))} [] [] 0 0

/-- Witness for C10 at a concrete input. -/
theorem c10_mutators_preserve_inv_witness :
    WInv wWorld ∧
    (WInv wWorld.reset ∧ WInv (wWorld.set_robot_position (2, 2)) ∧
     WInv (wWorld.add_dirt (2, 2)) ∧ WInv (wWorld.toggle_dirt (2, 2)) ∧
     WInv (wWorld.random_dirt (fun _ => true)) ∧
     WInv (wWorld.execute_action Action.up).1 ∧ WInv (wWorld.set_grid_size 2)) := by
  exact ⟨⟨by decide, by decide⟩,
    c10_mutators_preserve_inv wWorld (2, 2) (fun _ => true) Action.up 2 ⟨by decide, by decide⟩⟩

/-- A diagnostic expansion edge `(parent, action, child, metric)` as appended
to `search_tree` by the strategies. -/
abbrev Edge := State × Action × State × Int

/-- The search-result record as the six strategies' return sites are
written (including the diagnostic fields `explored_nodes` and `search_tree`
that the strategy code passes).  `time_taken` is a wall-clock duration in
Python and is not modelled; the embedding records 0.  `SearchResult.__init__`
in `app/models/state.py` does NOT declare the last two parameters, so under
actual Python call semantics most of these calls raise `TypeError` — that
mismatch is the subject of claim C1, and the call-level behaviour is
modelled separately (`PySearchResult`, `PyRet`, `pyReturn` and the `...Py`
strategies below); this record is what the call sites are written to
produce, used for reasoning about the loop logic itself. -/
structure SearchResult where
  path : List Action
  nodes_expanded : Nat
  time_taken : Nat
  memory_used : Nat
  success : Bool
  algorithm_name : String
  explored_nodes : List Pos
  search_tree : List Edge
deriving DecidableEq

/-- Which return site of a strategy produced the result (instrumentation for
the embedding; `fuelOut` is the artificial out-of-fuel default that no actual
run reaches). -/
inductive Outcome where
  | success
  | timedOut
  | nodeLimit
  | exhausted
  | fuelOut
deriving DecidableEq

/-- Embeds `MAX_NODES` from `search_algorithms.py`. -/
def MAX_NODES : Nat := 1000000

/-- Embeds `TREE_EDGE_LIMIT` from `search_algorithms.py`. -/
def TREE_EDGE_LIMIT : Nat := 20000

/-- Fuel-bounded iteration of a loop body that either returns a result or
continues with a new loop state; `d` is returned if fuel runs out. -/
def iterateD {σ ρ : Type} (step : σ → Sum ρ σ) (d : ρ) : Nat → σ → ρ
  | 0, _ => d
  | n + 1, s =>
    match step s with
    | Sum.inl r => r
    | Sum.inr s' => iterateD step d n s'

/-- Invariant-based reasoning principle for `iterateD`. -/
lemma iterateD_inv {σ ρ : Type} (step : σ → Sum ρ σ) (d : ρ)
    (Inv : σ → Prop) (Good : ρ → Prop) (hd : Good d)
    (hret : ∀ s r, Inv s → step s = Sum.inl r → Good r)
    (hpres : ∀ s s', Inv s → step s = Sum.inr s' → Inv s') :
    ∀ (n : Nat) (s : σ), Inv s → Good (iterateD step d n s) := by
  intro n
  induction n with
  | zero => intro s _; exact hd
  | succ m ih =>
    intro s hs
    show Good (match step s with
      | Sum.inl r => r
      | Sum.inr s' => iterateD step d m s')
    rcases hstep : step s with r | s'
    · exact hret s r hs hstep
    · exact ih s' (hpres s s' hs hstep)

/-- The parameter names declared by `SearchResult.__init__` in
`app/models/state.py` (besides `self`). -/
def searchResultInitParams : List String :=
  ["path", "nodes_expanded", "time_taken", "memory_used", "success", "algorithm_name"]

/-- The keyword arguments passed in the final `return SearchResult(...)` of
`greedy_nearest_neighbor` in `app/algorithms/greedy_nn.py`. -/
def nnReturnKwargs : List String :=
  ["path", "nodes_expanded", "time_taken", "memory_used", "success",
   "algorithm_name", "explored_nodes", "search_tree"]

/-- The keyword arguments passed in the goal-found `return SearchResult(...)`
of `SearchAlgorithms.bfs` in `app/algorithms/search_algorithms.py`. -/
def bfsGoalReturnKwargs : List String :=
  ["path", "nodes_expanded", "time_taken", "memory_used", "success",
   "algorithm_name", "explored_nodes", "search_tree"]

/-- A Python call with keyword arguments `kwargs` to a function whose
declared parameters are `params` succeeds iff every keyword is declared;
otherwise Python raises `TypeError` at the call. -/
def pythonCallOk (params kwargs : List String) : Bool :=
  kwargs.all (fun k => params.contains k)

/-- CLAIM C1 (refuted; the constructor is the slip): the strategies call the
`SearchResult` constructor with the keywords `explored_nodes` and
`search_tree`, which `SearchResult.__init__` does not declare, so the call
raises `TypeError` instead of returning a `SearchResult` — e.g. the final
return of `greedy_nearest_neighbor` (reached for every input, even an
all-clean board) and the goal-found return of `bfs`. -/
theorem c1_searchresult_call_malformed :
    pythonCallOk searchResultInitParams nnReturnKwargs = false ∧
    pythonCallOk searchResultInitParams bfsGoalReturnKwargs = false ∧
    "explored_nodes" ∈ nnReturnKwargs ∧ "explored_nodes" ∉ searchResultInitParams := by
  refine ⟨by decide, by decide, by decide, by decide⟩

/-- The accumulator threaded through `greedy_nearest_neighbor`'s loops:
current state, action path, `nodes_expanded`, `explored_nodes`,
`search_tree`. -/
structure NNAcc where
  cur : State
  path : List Action
  nodes : Nat
  explored : List Pos
  tree : List Edge
deriving DecidableEq

/-- Embeds the local helper `record_step` of `greedy_nearest_neighbor`:
append one diagnostic edge per successor of the current state, record the
current position as explored, then take the step. -/
def nnRecordStep (g : Int) (target : Pos) (acc : NNAcc) (a : Action) (next : State) : NNAcc :=
  let tr := acc.tree ++ (get_successors acc.cur g).map
    (fun e => (acc.cur, e.1, e.2, manhattan e.2.robot_pos target))
  NNAcc.mk next (acc.path ++ [a]) (acc.nodes + 1) (acc.explored ++ [acc.cur.robot_pos]) tr

/-- Embeds the horizontal walk of `greedy_nearest_neighbor`
(`while current.robot_pos[0] != target_x`); the fuel is instantiated with
the exact number of remaining steps `|cx - target_x|`. -/
def nnWalkX (g : Int) (target : Pos) : Nat → NNAcc → NNAcc
  | 0, acc => acc
  | n + 1, acc =>
    if acc.cur.robot_pos.1 = target.1 then acc
    else
      let cx := acc.cur.robot_pos.1
      let cy := acc.cur.robot_pos.2
      if cx < target.1 then
        nnWalkX g target n
          (nnRecordStep g target acc Action.right (State.mk (cx + 1, cy) acc.cur.dirt_set))
      else
        nnWalkX g target n
          (nnRecordStep g target acc Action.left (State.mk (cx - 1, cy) acc.cur.dirt_set))

/-- Embeds the vertical walk of `greedy_nearest_neighbor`. -/
def nnWalkY (g : Int) (target : Pos) : Nat → NNAcc → NNAcc
  | 0, acc => acc
  | n + 1, acc =>
    if acc.cur.robot_pos.2 = target.2 then acc
    else
      let cx := acc.cur.robot_pos.1
      let cy := acc.cur.robot_pos.2
      if cy < target.2 then
        nnWalkY g target n
          (nnRecordStep g target acc Action.down (State.mk (cx, cy + 1) acc.cur.dirt_set))
      else
        nnWalkY g target n
          (nnRecordStep g target acc Action.up (State.mk (cx, cy - 1) acc.cur.dirt_set))

/-- Embeds the nearest-dirt selection loop (`for dirt_pos in remaining_dirt`
with a strict `<` update, so the first minimum in iteration order wins). -/
def nearestDirtAux (robot : Pos) : List Pos → Option (Pos × Int) → Option (Pos × Int)
  | [], best => best
  | d :: rest, best =>
    let dist := manhattan robot d
    match best with
    | none => nearestDirtAux robot rest (some (d, dist))
    | some (b, bd) =>
      if dist < bd then nearestDirtAux robot rest (some (d, dist))
      else nearestDirtAux robot rest (some (b, bd))

/-- The selected nearest dirty cell, `none` iff the remaining set is empty. -/
def nearestDirt (robot : Pos) (l : List Pos) : Option Pos :=
  (nearestDirtAux robot l none).map Prod.fst

lemma nearestDirtAux_mem (robot : Pos) (P : Pos → Prop) :
    ∀ (l : List Pos) (b : Pos) (bd : Int), P b → (∀ d ∈ l, P d) →
      ∃ r rd, nearestDirtAux robot l (some (b, bd)) = some (r, rd) ∧ P r := by
  intro l
  induction l with
  | nil => intro b bd hb _; exact ⟨b, bd, rfl, hb⟩
  | cons d rest ih =>
    intro b bd hb hl
    show ∃ r rd, (if manhattan robot d < bd then nearestDirtAux robot rest (some (d, manhattan robot d))
      else nearestDirtAux robot rest (some (b, bd))) = some (r, rd) ∧ P r
    split
    · exact ih d (manhattan robot d) (hl d (List.mem_cons_self d rest))
        (fun q hq => hl q (List.mem_cons.2 (Or.inr hq)))
    · exact ih b bd hb (fun q hq => hl q (List.mem_cons.2 (Or.inr hq)))

lemma nearestDirt_mem (robot : Pos) (l : List Pos) (t : Pos)
    (h : nearestDirt robot l = some t) : t ∈ l := by
  cases l with
  | nil => simp [nearestDirt, nearestDirtAux] at h
  | cons d rest =>
    have : nearestDirtAux robot (d :: rest) none =
        nearestDirtAux robot rest (some (d, manhattan robot d)) := rfl
    rcases nearestDirtAux_mem robot (fun q => q ∈ d :: rest) rest d (manhattan robot d)
        (List.mem_cons_self d rest) (fun q hq => List.mem_cons.2 (Or.inr hq)) with
      ⟨r, rd, hr, hrmem⟩
    unfold nearestDirt at h
    rw [this, hr] at h
    simp only [Option.map_some'] at h
    have ht : r = t := Option.some.inj h
    rw [← ht]
    exact hrmem

lemma nearestDirt_none (robot : Pos) (l : List Pos) (h : nearestDirt robot l = none) :
    l = [] := by
  cases l with
  | nil => rfl
  | cons d rest =>
    exfalso
    have heq : nearestDirtAux robot (d :: rest) none =
        nearestDirtAux robot rest (some (d, manhattan robot d)) := rfl
    rcases nearestDirtAux_mem robot (fun _ => True) rest d (manhattan robot d) trivial
        (fun _ _ => trivial) with ⟨r, rd, hr, _⟩
    unfold nearestDirt at h
    rw [heq, hr] at h
    simp at h

/-- One round of the outer loop of `greedy_nearest_neighbor`: walk
horizontally then vertically to the chosen target, then suck. -/
def nnRound (g : Int) (target : Pos) (acc : NNAcc) : NNAcc :=
  let acc1 := nnWalkX g target ((acc.cur.robot_pos.1 - target.1).natAbs) acc
  let acc2 := nnWalkY g target ((acc1.cur.robot_pos.2 - target.2).natAbs) acc1
  nnRecordStep g target acc2 Action.suck
    (State.mk acc2.cur.robot_pos (acc2.cur.dirt_set.erase acc2.cur.robot_pos))

/-- Embeds the outer `while remaining_dirt:` loop of
`greedy_nearest_neighbor`; one fuel unit per removed dirty cell, so the
initial dirt count is exactly enough fuel. -/
def nnLoop (g : Int) : Nat → Finset Pos → NNAcc → NNAcc × Finset Pos
  | 0, rem, acc => (acc, rem)
  | n + 1, rem, acc =>
    match nearestDirt acc.cur.robot_pos (dirtList rem) with
    | none => (acc, rem)
    | some target =>
      nnLoop g n (rem.erase (nnRound g target acc).cur.robot_pos) (nnRound g target acc)

/-- Embeds `greedy_nearest_neighbor` from `app/algorithms/greedy_nn.py`. -/
def greedy_nearest_neighbor (initial : State) (g : Int) : SearchResult :=
  let res := nnLoop g initial.dirt_set.card initial.dirt_set (NNAcc.mk initial [] 0 [] [])
  SearchResult.mk res.1.path res.1.nodes 0 initial.dirt_set.card true "Nearest Neighbor"
    res.1.explored res.1.tree

lemma nnWalkX_succ (g : Int) (target : Pos) (m : Nat) (acc : NNAcc) :
    nnWalkX g target (m + 1) acc =
      if acc.cur.robot_pos.1 = target.1 then acc
      else if acc.cur.robot_pos.1 < target.1 then
        nnWalkX g target m (nnRecordStep g target acc Action.right
          (State.mk (acc.cur.robot_pos.1 + 1, acc.cur.robot_pos.2) acc.cur.dirt_set))
      else
        nnWalkX g target m (nnRecordStep g target acc Action.left
          (State.mk (acc.cur.robot_pos.1 - 1, acc.cur.robot_pos.2) acc.cur.dirt_set)) := rfl

lemma nnWalkX_spec (g : Int) (target : Pos) :
    ∀ (n : Nat) (acc : NNAcc), (acc.cur.robot_pos.1 - target.1).natAbs ≤ n →
      (nnWalkX g target n acc).cur.robot_pos.1 = target.1 ∧
      (nnWalkX g target n acc).cur.robot_pos.2 = acc.cur.robot_pos.2 := by
  intro n
  induction n with
  | zero =>
    intro acc h
    have : acc.cur.robot_pos.1 = target.1 := by omega
    exact ⟨this, rfl⟩
  | succ m ih =>
    intro acc h
    rw [nnWalkX_succ]
    by_cases heq : acc.cur.robot_pos.1 = target.1
    · rw [if_pos heq]
      exact ⟨heq, rfl⟩
    · rw [if_neg heq]
      by_cases hlt : acc.cur.robot_pos.1 < target.1
      · rw [if_pos hlt]
        have := ih (nnRecordStep g target acc Action.right
          (State.mk (acc.cur.robot_pos.1 + 1, acc.cur.robot_pos.2) acc.cur.dirt_set))
          (by simp only [nnRecordStep]; omega)
        simpa [nnRecordStep] using this
      · rw [if_neg hlt]
        have := ih (nnRecordStep g target acc Action.left
          (State.mk (acc.cur.robot_pos.1 - 1, acc.cur.robot_pos.2) acc.cur.dirt_set))
          (by simp only [nnRecordStep]; omega)
        simpa [nnRecordStep] using this

lemma nnWalkY_succ (g : Int) (target : Pos) (m : Nat) (acc : NNAcc) :
    nnWalkY g target (m + 1) acc =
      if acc.cur.robot_pos.2 = target.2 then acc
      else if acc.cur.robot_pos.2 < target.2 then
        nnWalkY g target m (nnRecordStep g target acc Action.down
          (State.mk (acc.cur.robot_pos.1, acc.cur.robot_pos.2 + 1) acc.cur.dirt_set))
      else
        nnWalkY g target m (nnRecordStep g target acc Action.up
          (State.mk (acc.cur.robot_pos.1, acc.cur.robot_pos.2 - 1) acc.cur.dirt_set)) := rfl

lemma nnWalkY_spec (g : Int) (target : Pos) :
    ∀ (n : Nat) (acc : NNAcc), (acc.cur.robot_pos.2 - target.2).natAbs ≤ n →
      (nnWalkY g target n acc).cur.robot_pos.2 = target.2 ∧
      (nnWalkY g target n acc).cur.robot_pos.1 = acc.cur.robot_pos.1 := by
  intro n
  induction n with
  | zero =>
    intro acc h
    have : acc.cur.robot_pos.2 = target.2 := by omega
    exact ⟨this, rfl⟩
  | succ m ih =>
    intro acc h
    rw [nnWalkY_succ]
    by_cases heq : acc.cur.robot_pos.2 = target.2
    · rw [if_pos heq]
      exact ⟨heq, rfl⟩
    · rw [if_neg heq]
      by_cases hlt : acc.cur.robot_pos.2 < target.2
      · rw [if_pos hlt]
        have := ih (nnRecordStep g target acc Action.down
          (State.mk (acc.cur.robot_pos.1, acc.cur.robot_pos.2 + 1) acc.cur.dirt_set))
          (by simp only [nnRecordStep]; omega)
        simpa [nnRecordStep] using this
      · rw [if_neg hlt]
        have := ih (nnRecordStep g target acc Action.up
          (State.mk (acc.cur.robot_pos.1, acc.cur.robot_pos.2 - 1) acc.cur.dirt_set))
          (by simp only [nnRecordStep]; omega)
        simpa [nnRecordStep] using this

lemma nnRound_pos (g : Int) (target : Pos) (acc : NNAcc) :
    (nnRound g target acc).cur.robot_pos = target := by
  unfold nnRound
  have hx := nnWalkX_spec g target ((acc.cur.robot_pos.1 - target.1).natAbs) acc (le_refl _)
  set acc1 := nnWalkX g target ((acc.cur.robot_pos.1 - target.1).natAbs) acc
  have hy := nnWalkY_spec g target ((acc1.cur.robot_pos.2 - target.2).natAbs) acc1 (le_refl _)
  set acc2 := nnWalkY g target ((acc1.cur.robot_pos.2 - target.2).natAbs) acc1
  show (nnRecordStep g target acc2 Action.suck
    (State.mk acc2.cur.robot_pos (acc2.cur.dirt_set.erase acc2.cur.robot_pos))).cur.robot_pos = target
  have h1 : acc2.cur.robot_pos.1 = target.1 := by rw [hy.2, hx.1]
  have h2 : acc2.cur.robot_pos.2 = target.2 := hy.1
  show acc2.cur.robot_pos = target
  calc acc2.cur.robot_pos = (acc2.cur.robot_pos.1, acc2.cur.robot_pos.2) := rfl
    _ = (target.1, target.2) := by rw [h1, h2]
    _ = target := rfl

lemma nnLoop_clears (g : Int) :
    ∀ (n : Nat) (rem : Finset Pos) (acc : NNAcc), rem.card ≤ n →
      (nnLoop g n rem acc).2 = ∅ := by
  intro n
  induction n with
  | zero =>
    intro rem acc h
    exact Finset.card_eq_zero.1 (Nat.le_zero.1 h)
  | succ m ih =>
    intro rem acc h
    rcases hsel : nearestDirt acc.cur.robot_pos (dirtList rem) with _ | target
    · have hnil : dirtList rem = [] := nearestDirt_none _ _ hsel
      have hrem : rem = ∅ := by
        by_contra hne
        rcases Finset.nonempty_iff_ne_empty.2 hne with ⟨x, hx⟩
        have : x ∈ dirtList rem := (Finset.mem_sort posLe).2 hx
        rw [hnil] at this
        exact absurd this (List.not_mem_nil x)
      show (nnLoop g (m + 1) rem acc).2 = ∅
      unfold nnLoop
      rw [hsel]
      exact hrem
    · have htmem : target ∈ rem := by
        have := nearestDirt_mem _ _ _ hsel
        exact (Finset.mem_sort posLe).1 this
      show (nnLoop g (m + 1) rem acc).2 = ∅
      unfold nnLoop
      rw [hsel]
      show (nnLoop g m (rem.erase (nnRound g target acc).cur.robot_pos) (nnRound g target acc)).2 = ∅
      rw [nnRound_pos]
      apply ih
      have := Finset.card_erase_of_mem htmem
      omega

/-- Python `set.add` on a set modelled as a duplicate-free list in insertion
order. -/
def setAdd (l : List State) (s : State) : List State :=
  if s ∈ l then l else l ++ [s]

/-- The list comprehension `[s.robot_pos for s in explored]`. -/
def posListOf (l : List State) : List Pos :=
  l.map (fun s => s.robot_pos)

/-- The guarded `search_tree.append` used by the five full-search
strategies (`if len(search_tree) < tree_node_limit`). -/
def treeAdd (tree : List Edge) (e : Edge) : List Edge :=
  if tree.length < TREE_EDGE_LIMIT then tree ++ [e] else tree

/-- Loop state shared by the embeddings of `bfs` and `dfs`: frontier of
(state, path) pairs, the `frontier_set` and `explored` Python sets, the
`nodes_expanded` and `max_frontier_size` counters, the number of loop
iterations performed so far (index for the time oracle) and the captured
`search_tree`. -/
structure PlainSt where
  frontier : List (State × List Action)
  fset : List State
  explored : List State
  nodes : Nat
  maxf : Nat
  iter : Nat
  tree : List Edge
deriving DecidableEq

/-- Embeds the successor `for` loop of `SearchAlgorithms.bfs`, including the
early goal test applied to freshly generated children. -/
def bfsKids (g : Int) (parent : State) (path : List Action) (nodesNow maxfNow : Nat)
    (exp : List State) :
    List (Action × State) → List (State × List Action) → List State → List Edge →
    Sum (SearchResult × Outcome) (List (State × List Action) × List State × List Edge)
  | [], fr, fs, tr => Sum.inr (fr, fs, tr)
  | (a, c) :: rest, fr, fs, tr =>
    let tr1 := treeAdd tr (parent, a, c, ((path.length + 1 : Nat) : Int))
    if c ∉ exp ∧ c ∉ fs then
      if c.is_goal then
        Sum.inl (SearchResult.mk (path ++ [a]) nodesNow 0 maxfNow true "BFS"
          (posListOf exp) tr1, Outcome.success)
      else
        bfsKids g parent path nodesNow maxfNow exp rest
          (fr ++ [(c, path ++ [a])]) (fs ++ [c]) tr1
    else
      bfsKids g parent path nodesNow maxfNow exp rest fr fs tr1

/-- The body of one `bfs` loop iteration once an entry `(s, p)` has been
popped off the queue (`rest` is the remaining frontier). -/
def bfsPop (g : Int) (tmo : Nat → Bool) (st : PlainSt) (s : State) (p : List Action)
    (rest : List (State × List Action)) : Sum (SearchResult × Outcome) PlainSt :=
  if tmo st.iter then
    Sum.inl (SearchResult.mk [] st.nodes 0 st.maxf false "BFS (timeout)" [] [],
      Outcome.timedOut)
  else if st.nodes > MAX_NODES then
    Sum.inl (SearchResult.mk [] st.nodes 0 st.maxf false "BFS (node limit)"
      (posListOf st.explored) st.tree, Outcome.nodeLimit)
  else
    Sum.elim Sum.inl
      (fun k => Sum.inr (PlainSt.mk k.1 k.2.1 (setAdd st.explored s) (st.nodes + 1)
        (max st.maxf st.frontier.length) (st.iter + 1) k.2.2))
      (bfsKids g s p (st.nodes + 1) (max st.maxf st.frontier.length)
        (setAdd st.explored s) (get_successors s g) rest (st.fset.erase s) st.tree)

/-- Embeds one iteration of the `while frontier:` loop of
`SearchAlgorithms.bfs`. -/
def bfsStep (g : Int) (tmo : Nat → Bool) (st : PlainSt) :
    Sum (SearchResult × Outcome) PlainSt :=
  match st.frontier with
  | [] =>
    Sum.inl (SearchResult.mk [] st.nodes 0 st.maxf false "BFS"
      (posListOf st.explored) st.tree, Outcome.exhausted)
  | (s, p) :: rest => bfsPop g tmo st s p rest

lemma bfsStep_nil (g : Int) (tmo : Nat → Bool) (st : PlainSt)
    (hf : st.frontier = []) :
    bfsStep g tmo st = Sum.inl (SearchResult.mk [] st.nodes 0 st.maxf false "BFS"
      (posListOf st.explored) st.tree, Outcome.exhausted) := by
  unfold bfsStep
  rw [hf]

lemma bfsStep_cons (g : Int) (tmo : Nat → Bool) (st : PlainSt) (s : State)
    (p : List Action) (rest : List (State × List Action))
    (hf : st.frontier = (s, p) :: rest) :
    bfsStep g tmo st = bfsPop g tmo st s p rest := by
  unfold bfsStep
  rw [hf]

/-- Embeds `SearchAlgorithms.bfs`: the initial-goal short circuit, then the
fuelled loop. -/
def bfs (g : Int) (tmo : Nat → Bool) (s0 : State) (fuel : Nat) : SearchResult × Outcome :=
  if s0.is_goal then
    (SearchResult.mk [] 0 0 1 true "BFS" [] [], Outcome.success)
  else
    iterateD (bfsStep g tmo)
      (SearchResult.mk [] 0 0 0 false "BFS" [] [], Outcome.fuelOut) fuel
      (PlainSt.mk [(s0, [])] [s0] [] 0 1 0 [])

/-- Embeds the successor `for` loop of `SearchAlgorithms.dfs` (children are
pushed onto the stack; the embedding keeps the stack top at the list head,
so each Python `append` is a cons here). -/
def dfsKids (g : Int) (parent : State) (path : List Action) (exp : List State) :
    List (Action × State) → List (State × List Action) → List State → List Edge →
    List (State × List Action) × List State × List Edge
  | [], fr, fs, tr => (fr, fs, tr)
  | (a, c) :: rest, fr, fs, tr =>
    let tr1 := treeAdd tr (parent, a, c, ((path.length + 1 : Nat) : Int))
    if c ∉ exp ∧ c ∉ fs then
      dfsKids g parent path exp rest ((c, path ++ [a]) :: fr) (fs ++ [c]) tr1
    else
      dfsKids g parent path exp rest fr fs tr1

/-- The body of one `dfs` loop iteration once an entry `(s, p)` has been
popped off the stack. -/
def dfsPop (g : Int) (tmo : Nat → Bool) (maxDepth : Nat) (st : PlainSt) (s : State)
    (p : List Action) (rest : List (State × List Action)) :
    Sum (SearchResult × Outcome) PlainSt :=
  if tmo st.iter then
    Sum.inl (SearchResult.mk [] st.nodes 0 st.maxf false "DFS (timeout)"
      (posListOf st.explored) [], Outcome.timedOut)
  else if st.nodes > MAX_NODES then
    Sum.inl (SearchResult.mk [] st.nodes 0 st.maxf false "DFS (node limit)"
      (posListOf st.explored) [], Outcome.nodeLimit)
  else if p.length > maxDepth then
    Sum.inr (PlainSt.mk rest (st.fset.erase s) st.explored st.nodes
      (max st.maxf st.frontier.length) (st.iter + 1) st.tree)
  else if s.is_goal then
    Sum.inl (SearchResult.mk p (st.nodes + 1) 0 (max st.maxf st.frontier.length) true "DFS"
      (posListOf (setAdd st.explored s)) st.tree, Outcome.success)
  else
    let k := dfsKids g s p (setAdd st.explored s) (get_successors s g) rest
      (st.fset.erase s) st.tree
    Sum.inr (PlainSt.mk k.1 k.2.1 (setAdd st.explored s) (st.nodes + 1)
      (max st.maxf st.frontier.length) (st.iter + 1) k.2.2)

/-- Embeds one iteration of the `while frontier:` loop of
`SearchAlgorithms.dfs`, including the depth-cap skip. -/
def dfsStep (g : Int) (tmo : Nat → Bool) (maxDepth : Nat) (st : PlainSt) :
    Sum (SearchResult × Outcome) PlainSt :=
  match st.frontier with
  | [] =>
    Sum.inl (SearchResult.mk [] st.nodes 0 st.maxf false "DFS" [] [],
      Outcome.exhausted)
  | (s, p) :: rest => dfsPop g tmo maxDepth st s p rest

lemma dfsStep_nil (g : Int) (tmo : Nat → Bool) (maxDepth : Nat) (st : PlainSt)
    (hf : st.frontier = []) :
    dfsStep g tmo maxDepth st = Sum.inl (SearchResult.mk [] st.nodes 0 st.maxf false "DFS"
      [] [], Outcome.exhausted) := by
  unfold dfsStep
  rw [hf]

lemma dfsStep_cons (g : Int) (tmo : Nat → Bool) (maxDepth : Nat) (st : PlainSt) (s : State)
    (p : List Action) (rest : List (State × List Action))
    (hf : st.frontier = (s, p) :: rest) :
    dfsStep g tmo maxDepth st = dfsPop g tmo maxDepth st s p rest := by
  unfold dfsStep
  rw [hf]

/-- Embeds `SearchAlgorithms.dfs` (depth cap `max_depth`, default 100 in
Python). -/
def dfs (g : Int) (tmo : Nat → Bool) (maxDepth : Nat) (s0 : State) (fuel : Nat) :
    SearchResult × Outcome :=
  if s0.is_goal then
    (SearchResult.mk [] 0 0 1 true "DFS" [] [], Outcome.success)
  else
    iterateD (dfsStep g tmo maxDepth)
      (SearchResult.mk [] 0 0 0 false "DFS" [] [], Outcome.fuelOut) fuel
      (PlainSt.mk [(s0, [])] [s0] [] 0 1 0 [])

lemma dfsStep_ret (g : Int) (tmo : Nat → Bool) (maxDepth : Nat) (st : PlainSt)
    (r : SearchResult) (o : Outcome)
    (h : dfsStep g tmo maxDepth st = Sum.inl (r, o)) :
    r.success = true → r.path.length ≤ maxDepth := by
  rcases hf : st.frontier with _ | ⟨⟨s, p⟩, rest⟩
  · rw [dfsStep_nil g tmo maxDepth st hf] at h
    simp only [Sum.inl.injEq, Prod.mk.injEq] at h
    rw [← h.1]
    intro hs
    simp at hs
  · rw [dfsStep_cons g tmo maxDepth st s p rest hf] at h
    unfold dfsPop at h
    split_ifs at h with h1 h2 h3 h4
    · simp only [Sum.inl.injEq, Prod.mk.injEq] at h
      rw [← h.1]
      intro hs
      simp at hs
    · simp only [Sum.inl.injEq, Prod.mk.injEq] at h
      rw [← h.1]
      intro hs
      simp at hs
    · simp only [Sum.inl.injEq, Prod.mk.injEq] at h
      rw [← h.1]
      intro _
      show p.length ≤ maxDepth
      omega

/-- CLAIM C7: whenever `dfs` reports success, the returned path is no longer
than the configured depth cap (100 by default in the Python code). -/
theorem c7_dfs_depth_cap (g : Int) (tmo : Nat → Bool) (maxDepth : Nat) (s0 : State)
    (fuel : Nat) (hs : (dfs g tmo maxDepth s0 fuel).1.success = true) :
    (dfs g tmo maxDepth s0 fuel).1.path.length ≤ maxDepth := by
  unfold dfs at hs ⊢
  split at hs
  · split
    · simp
    · simp_all
  · split
    · simp_all
    · revert hs
      have := iterateD_inv (dfsStep g tmo maxDepth)
        (SearchResult.mk [] 0 0 0 false "DFS" [] [], Outcome.fuelOut)
        (fun _ => True)
        (fun ro => ro.1.success = true → ro.1.path.length ≤ maxDepth)
        (by intro hcon; simp at hcon)
        (by intro s r hInv hstep
            exact dfsStep_ret g tmo maxDepth s r.1 r.2 (by rw [hstep]))
        (by intro _ _ _ _; trivial)
        fuel (PlainSt.mk [(s0, [])] [s0] [] 0 1 0 []) trivial
      exact this

/-- Witness for C7 at a concrete input (the run succeeds within the cap). -/
theorem c7_dfs_depth_cap_witness :
    (dfs 2 (fun _ => false) 100 wSt 5).1.success = true ∧
    (dfs 2 (fun _ => false) 100 wSt 5).1.path.length ≤ 100 := by
  refine ⟨by decide, c7_dfs_depth_cap 2 (fun _ => false) 100 wSt 5 (by decide)⟩

/-- Sorted insertion standing in for `heapq.heappush` followed by minimum
extraction at the head: the heap is kept as a list sorted by the boolean
order `le`, which for each algorithm is the lexicographic comparison of the
Python tuples (the unique counters make later components irrelevant). -/
def insertSorted {A : Type} (le : A → A → Bool) (x : A) : List A → List A
  | [] => [x]
  | y :: ys => if le x y then x :: y :: ys else y :: insertSorted le x ys

/-- Python dict lookup (`state in explored` / `explored[state]`) on a dict
modelled as an association list in insertion order. -/
def lookupD : List (State × Nat) → State → Option Nat
  | [], _ => none
  | (t, c) :: rest, s => if t = s then some c else lookupD rest s

/-- Python dict assignment `explored[state] = cost`: replace in place or
append. -/
def dictInsert : List (State × Nat) → State → Nat → List (State × Nat)
  | [], s, c => [(s, c)]
  | (t, c') :: rest, s, c =>
    if t = s then (t, c) :: rest else (t, c') :: dictInsert rest s c

/-- The list comprehension `[s.robot_pos for s in explored]` over dict keys
(Python dicts iterate in insertion order). -/
def dictKeysPos (l : List (State × Nat)) : List Pos :=
  l.map (fun e => e.1.robot_pos)

/-- The Python skip test `state in explored and explored[state] <= cost`. -/
def dictAtMost (l : List (State × Nat)) (s : State) (c : Nat) : Bool :=
  match lookupD l s with
  | none => false
  | some v => v ≤ c

/-- A `ucs` frontier entry `(cost, counter, state, path)`. -/
abbrev UcsEntry := Nat × Nat × State × List Action

/-- Tuple comparison for `ucs` heap entries: `(cost, counter)`
lexicographically (counters are unique, so the comparison never reaches the
state). -/
def ucsLe (e1 e2 : UcsEntry) : Bool :=
  decide (e1.1 < e2.1 ∨ (e1.1 = e2.1 ∧ e1.2.1 ≤ e2.2.1))

/-- Loop state of the embedded `ucs`. -/
structure UcsSt where
  heap : List UcsEntry
  expl : List (State × Nat)
  counter : Nat
  nodes : Nat
  maxf : Nat
  iter : Nat
  tree : List Edge
deriving DecidableEq

/-- The Python push test
`next_state not in explored or explored[next_state] > new_cost`. -/
def pushCond (expl1 : List (State × Nat)) (c : State) (nc : Nat) : Bool :=
  match lookupD expl1 c with
  | none => true
  | some v => v > nc

/-- Embeds the successor `for` loop of `SearchAlgorithms.ucs`. -/
def ucsKids (g : Int) (parent : State) (path : List Action) (cost : Nat)
    (expl1 : List (State × Nat)) :
    List (Action × State) → List UcsEntry → Nat → List Edge →
    List UcsEntry × Nat × List Edge
  | [], hp, ctr, tr => (hp, ctr, tr)
  | (a, c) :: rest, hp, ctr, tr =>
    let tr1 := treeAdd tr (parent, a, c, ((cost + 1 : Nat) : Int))
    if pushCond expl1 c (cost + 1) then
      ucsKids g parent path cost expl1 rest
        (insertSorted ucsLe (cost + 1, ctr + 1, c, path ++ [a]) hp) (ctr + 1) tr1
    else
      ucsKids g parent path cost expl1 rest hp ctr tr1

/-- The body of one `ucs` loop iteration once the minimum entry has been
popped. -/
def ucsPop (g : Int) (tmo : Nat → Bool) (st : UcsSt) (cost : Nat) (s : State)
    (p : List Action) (rest : List UcsEntry) : Sum (SearchResult × Outcome) UcsSt :=
  if tmo st.iter then
    Sum.inl (SearchResult.mk [] st.nodes 0 st.maxf false "UCS (timeout)"
      (dictKeysPos st.expl) st.tree, Outcome.timedOut)
  else if st.nodes > MAX_NODES then
    Sum.inl (SearchResult.mk [] st.nodes 0 st.maxf false "UCS (node limit)"
      (dictKeysPos st.expl) st.tree, Outcome.nodeLimit)
  else if dictAtMost st.expl s cost then
    Sum.inr (UcsSt.mk rest st.expl st.counter st.nodes (max st.maxf st.heap.length)
      (st.iter + 1) st.tree)
  else if s.is_goal then
    Sum.inl (SearchResult.mk p (st.nodes + 1) 0 (max st.maxf st.heap.length) true "UCS"
      (dictKeysPos (dictInsert st.expl s cost)) st.tree, Outcome.success)
  else
    let k := ucsKids g s p cost (dictInsert st.expl s cost) (get_successors s g)
      rest st.counter st.tree
    Sum.inr (UcsSt.mk k.1 (dictInsert st.expl s cost) k.2.1 (st.nodes + 1)
      (max st.maxf st.heap.length) (st.iter + 1) k.2.2)

/-- Embeds one iteration of the `while frontier:` loop of
`SearchAlgorithms.ucs`. -/
def ucsStep (g : Int) (tmo : Nat → Bool) (st : UcsSt) :
    Sum (SearchResult × Outcome) UcsSt :=
  match st.heap with
  | [] =>
    Sum.inl (SearchResult.mk [] st.nodes 0 st.maxf false "UCS"
      (dictKeysPos st.expl) st.tree, Outcome.exhausted)
  | (cost, _, s, p) :: rest => ucsPop g tmo st cost s p rest

/-- Embeds `SearchAlgorithms.ucs`. -/
def ucs (g : Int) (tmo : Nat → Bool) (s0 : State) (fuel : Nat) : SearchResult × Outcome :=
  iterateD (ucsStep g tmo)
    (SearchResult.mk [] 0 0 0 false "UCS" [] [], Outcome.fuelOut) fuel
    (UcsSt.mk [(0, 0, s0, [])] [] 0 0 1 0 [])

/-- A `greedy` frontier entry `(h, counter, state, path)`. -/
abbrev GreedyEntry := Int × Nat × State × List Action

/-- Tuple comparison for `greedy` heap entries. -/
def greedyLe (e1 e2 : GreedyEntry) : Bool :=
  decide (e1.1 < e2.1 ∨ (e1.1 = e2.1 ∧ e1.2.1 ≤ e2.2.1))

/-- Loop state of the embedded `greedy` (its `explored` is a Python set). -/
structure GreedySt where
  heap : List GreedyEntry
  explored : List State
  counter : Nat
  nodes : Nat
  maxf : Nat
  iter : Nat
  tree : List Edge
deriving DecidableEq

/-- Embeds the successor `for` loop of `SearchAlgorithms.greedy`. -/
def greedyKids (g : Int) (parent : State) (path : List Action) (exp : List State) :
    List (Action × State) → List GreedyEntry → Nat → List Edge →
    List GreedyEntry × Nat × List Edge
  | [], hp, ctr, tr => (hp, ctr, tr)
  | (a, c) :: rest, hp, ctr, tr =>
    let hval := heuristic c g
    let tr1 := treeAdd tr (parent, a, c, hval)
    if c ∉ exp then
      greedyKids g parent path exp rest
        (insertSorted greedyLe (hval, ctr + 1, c, path ++ [a]) hp) (ctr + 1) tr1
    else
      greedyKids g parent path exp rest hp ctr tr1

/-- The body of one `greedy` loop iteration once the minimum entry has been
popped. -/
def greedyPop (g : Int) (tmo : Nat → Bool) (st : GreedySt) (s : State)
    (p : List Action) (rest : List GreedyEntry) : Sum (SearchResult × Outcome) GreedySt :=
  if tmo st.iter then
    Sum.inl (SearchResult.mk [] st.nodes 0 st.maxf false "Greedy (timeout)" [] [],
      Outcome.timedOut)
  else if st.nodes > MAX_NODES then
    Sum.inl (SearchResult.mk [] st.nodes 0 st.maxf false "Greedy (node limit)" [] [],
      Outcome.nodeLimit)
  else if s ∈ st.explored then
    Sum.inr (GreedySt.mk rest st.explored st.counter st.nodes
      (max st.maxf st.heap.length) (st.iter + 1) st.tree)
  else if s.is_goal then
    Sum.inl (SearchResult.mk p (st.nodes + 1) 0 (max st.maxf st.heap.length) true "Greedy"
      (posListOf (setAdd st.explored s)) st.tree, Outcome.success)
  else
    let k := greedyKids g s p (setAdd st.explored s) (get_successors s g)
      rest st.counter st.tree
    Sum.inr (GreedySt.mk k.1 (setAdd st.explored s) k.2.1 (st.nodes + 1)
      (max st.maxf st.heap.length) (st.iter + 1) k.2.2)

/-- Embeds one iteration of the `while frontier:` loop of
`SearchAlgorithms.greedy`. -/
def greedyStep (g : Int) (tmo : Nat → Bool) (st : GreedySt) :
    Sum (SearchResult × Outcome) GreedySt :=
  match st.heap with
  | [] =>
    Sum.inl (SearchResult.mk [] st.nodes 0 st.maxf false "Greedy"
      (posListOf st.explored) st.tree, Outcome.exhausted)
  | (_, _, s, p) :: rest => greedyPop g tmo st s p rest

/-- Embeds `SearchAlgorithms.greedy`. -/
def greedy (g : Int) (tmo : Nat → Bool) (s0 : State) (fuel : Nat) :
    SearchResult × Outcome :=
  iterateD (greedyStep g tmo)
    (SearchResult.mk [] 0 0 0 false "Greedy" [] [], Outcome.fuelOut) fuel
    (GreedySt.mk [(heuristic s0 g, 0, s0, [])] [] 0 0 1 0 [])

/-- An `astar` frontier entry `(f, counter, g, state, path)`. -/
abbrev AstarEntry := Int × Nat × Nat × State × List Action

/-- Tuple comparison for `astar` heap entries. -/
def astarLe (e1 e2 : AstarEntry) : Bool :=
  decide (e1.1 < e2.1 ∨ (e1.1 = e2.1 ∧ e1.2.1 ≤ e2.2.1))

/-- Loop state of the embedded `astar` (its `explored` is a dict mapping
states to accumulated cost `g`). -/
structure AstarSt where
  heap : List AstarEntry
  expl : List (State × Nat)
  counter : Nat
  nodes : Nat
  maxf : Nat
  iter : Nat
  tree : List Edge
deriving DecidableEq

/-- Embeds the successor `for` loop of `SearchAlgorithms.astar`. -/
def astarKids (g : Int) (parent : State) (path : List Action) (gacc : Nat)
    (expl1 : List (State × Nat)) :
    List (Action × State) → List AstarEntry → Nat → List Edge →
    List AstarEntry × Nat × List Edge
  | [], hp, ctr, tr => (hp, ctr, tr)
  | (a, c) :: rest, hp, ctr, tr =>
    let hval := heuristic c g
    let tr1 := treeAdd tr (parent, a, c, ((gacc + 1 : Nat) : Int) + hval)
    if pushCond expl1 c (gacc + 1) then
      astarKids g parent path gacc expl1 rest
        (insertSorted astarLe (((gacc + 1 : Nat) : Int) + hval, ctr + 1, gacc + 1, c,
          path ++ [a]) hp) (ctr + 1) tr1
    else
      astarKids g parent path gacc expl1 rest hp ctr tr1

/-- The body of one `astar` loop iteration once the minimum entry has been
popped. -/
def astarPop (g : Int) (tmo : Nat → Bool) (st : AstarSt) (gacc : Nat) (s : State)
    (p : List Action) (rest : List AstarEntry) : Sum (SearchResult × Outcome) AstarSt :=
  if tmo st.iter then
    Sum.inl (SearchResult.mk [] st.nodes 0 st.maxf false "A* (timeout)"
      (dictKeysPos st.expl) st.tree, Outcome.timedOut)
  else if st.nodes > MAX_NODES then
    Sum.inl (SearchResult.mk [] st.nodes 0 st.maxf false "A* (node limit)"
      (dictKeysPos st.expl) st.tree, Outcome.nodeLimit)
  else if dictAtMost st.expl s gacc then
    Sum.inr (AstarSt.mk rest st.expl st.counter st.nodes (max st.maxf st.heap.length)
      (st.iter + 1) st.tree)
  else if s.is_goal then
    Sum.inl (SearchResult.mk p (st.nodes + 1) 0 (max st.maxf st.heap.length) true "A*"
      (dictKeysPos (dictInsert st.expl s gacc)) st.tree, Outcome.success)
  else
    let k := astarKids g s p gacc (dictInsert st.expl s gacc) (get_successors s g)
      rest st.counter st.tree
    Sum.inr (AstarSt.mk k.1 (dictInsert st.expl s gacc) k.2.1 (st.nodes + 1)
      (max st.maxf st.heap.length) (st.iter + 1) k.2.2)

/-- Embeds one iteration of the `while frontier:` loop of
`SearchAlgorithms.astar`. -/
def astarStep (g : Int) (tmo : Nat → Bool) (st : AstarSt) :
    Sum (SearchResult × Outcome) AstarSt :=
  match st.heap with
  | [] =>
    Sum.inl (SearchResult.mk [] st.nodes 0 st.maxf false "A*"
      (dictKeysPos st.expl) st.tree, Outcome.exhausted)
  | (_, _, gacc, s, p) :: rest => astarPop g tmo st gacc s p rest

/-- Embeds `SearchAlgorithms.astar`. -/
def astar (g : Int) (tmo : Nat → Bool) (s0 : State) (fuel : Nat) :
    SearchResult × Outcome :=
  iterateD (astarStep g tmo)
    (SearchResult.mk [] 0 0 0 false "A*" [] [], Outcome.fuelOut) fuel
    (AstarSt.mk [(heuristic s0 g, 0, 0, s0, [])] [] 0 0 1 0 [])

lemma ucsStep_nil (g : Int) (tmo : Nat → Bool) (st : UcsSt) (hf : st.heap = []) :
    ucsStep g tmo st = Sum.inl (SearchResult.mk [] st.nodes 0 st.maxf false "UCS"
      (dictKeysPos st.expl) st.tree, Outcome.exhausted) := by
  unfold ucsStep
  rw [hf]

lemma ucsStep_cons (g : Int) (tmo : Nat → Bool) (st : UcsSt) (cost ctr : Nat) (s : State)
    (p : List Action) (rest : List UcsEntry) (hf : st.heap = (cost, ctr, s, p) :: rest) :
    ucsStep g tmo st = ucsPop g tmo st cost s p rest := by
  unfold ucsStep
  rw [hf]

lemma greedyStep_nil (g : Int) (tmo : Nat → Bool) (st : GreedySt) (hf : st.heap = []) :
    greedyStep g tmo st = Sum.inl (SearchResult.mk [] st.nodes 0 st.maxf false "Greedy"
      (posListOf st.explored) st.tree, Outcome.exhausted) := by
  unfold greedyStep
  rw [hf]

lemma greedyStep_cons (g : Int) (tmo : Nat → Bool) (st : GreedySt) (hv : Int) (ctr : Nat)
    (s : State) (p : List Action) (rest : List GreedyEntry)
    (hf : st.heap = (hv, ctr, s, p) :: rest) :
    greedyStep g tmo st = greedyPop g tmo st s p rest := by
  unfold greedyStep
  rw [hf]

lemma astarStep_nil (g : Int) (tmo : Nat → Bool) (st : AstarSt) (hf : st.heap = []) :
    astarStep g tmo st = Sum.inl (SearchResult.mk [] st.nodes 0 st.maxf false "A*"
      (dictKeysPos st.expl) st.tree, Outcome.exhausted) := by
  unfold astarStep
  rw [hf]

lemma astarStep_cons (g : Int) (tmo : Nat → Bool) (st : AstarSt) (fv : Int) (ctr gacc : Nat)
    (s : State) (p : List Action) (rest : List AstarEntry)
    (hf : st.heap = (fv, ctr, gacc, s, p) :: rest) :
    astarStep g tmo st = astarPop g tmo st gacc s p rest := by
  unfold astarStep
  rw [hf]

/-- The search-result record exactly as `SearchResult.__init__` in
`app/models/state.py` declares it: six parameters, no diagnostic fields. -/
structure PySearchResult where
  path : List Action
  nodes_expanded : Nat
  time_taken : Nat
  memory_used : Nat
  success : Bool
  algorithm_name : String
deriving DecidableEq

/-- The outcome of executing a `return SearchResult(...)` statement under
actual Python call semantics: either the constructed object, or the
`TypeError` Python raises when the call passes a keyword that `__init__`
does not declare. -/
inductive PyRet where
  | ret (r : PySearchResult)
  | typeErr
deriving DecidableEq

/-- Executes one `return SearchResult(...)` site: `kwargs` are the keyword
names the site passes; the call constructs `r` when every keyword is a
declared parameter and raises `TypeError` otherwise (`pythonCallOk`, the
call rule of claim C1). -/
def pyReturn (kwargs : List String) (r : PySearchResult) : PyRet :=
  if pythonCallOk searchResultInitParams kwargs then PyRet.ret r else PyRet.typeErr

/-- The keywords of the all-keyword goal-found return sites
(`path=`, ..., `explored_nodes=`, `search_tree=`). -/
def fullKw : List String :=
  ["path", "nodes_expanded", "time_taken", "memory_used", "success",
   "algorithm_name", "explored_nodes", "search_tree"]

/-- The keywords of the return sites that pass the two diagnostics by
keyword after six positional arguments. -/
def diagKw : List String := ["explored_nodes", "search_tree"]

/-- The keywords of the `dfs` timeout and node-limit return sites (only
`explored_nodes=`). -/
def explKw : List String := ["explored_nodes"]

lemma pyReturn_raise (kwargs : List String) (r : PySearchResult)
    (h : pythonCallOk searchResultInitParams kwargs = false) :
    pyReturn kwargs r = PyRet.typeErr := by
  simp [pyReturn, h]

/-- The successor loop of `bfs` under Python call semantics: identical to
`bfsKids` except that the goal-found return site passes all eight keywords
(`fullKw`), so the call raises. -/
def bfsKidsP (g : Int) (parent : State) (path : List Action) (nodesNow maxfNow : Nat)
    (exp : List State) :
    List (Action × State) → List (State × List Action) → List State → List Edge →
    Sum (PyRet × Outcome) (List (State × List Action) × List State × List Edge)
  | [], fr, fs, tr => Sum.inr (fr, fs, tr)
  | (a, c) :: rest, fr, fs, tr =>
    let tr1 := treeAdd tr (parent, a, c, ((path.length + 1 : Nat) : Int))
    if c ∉ exp ∧ c ∉ fs then
      if c.is_goal then
        Sum.inl (pyReturn fullKw (PySearchResult.mk (path ++ [a]) nodesNow 0 maxfNow
          true "BFS"), Outcome.success)
      else
        bfsKidsP g parent path nodesNow maxfNow exp rest
          (fr ++ [(c, path ++ [a])]) (fs ++ [c]) tr1
    else
      bfsKidsP g parent path nodesNow maxfNow exp rest fr fs tr1

/-- `bfsPop` under Python call semantics: the timeout return is purely
positional (well-formed), the node-limit return passes `diagKw` (raises). -/
def bfsPopP (g : Int) (tmo : Nat → Bool) (st : PlainSt) (s : State) (p : List Action)
    (rest : List (State × List Action)) : Sum (PyRet × Outcome) PlainSt :=
  if tmo st.iter then
    Sum.inl (pyReturn [] (PySearchResult.mk [] st.nodes 0 st.maxf false "BFS (timeout)"),
      Outcome.timedOut)
  else if st.nodes > MAX_NODES then
    Sum.inl (pyReturn diagKw (PySearchResult.mk [] st.nodes 0 st.maxf false
      "BFS (node limit)"), Outcome.nodeLimit)
  else
    Sum.elim Sum.inl
      (fun k => Sum.inr (PlainSt.mk k.1 k.2.1 (setAdd st.explored s) (st.nodes + 1)
        (max st.maxf st.frontier.length) (st.iter + 1) k.2.2))
      (bfsKidsP g s p (st.nodes + 1) (max st.maxf st.frontier.length)
        (setAdd st.explored s) (get_successors s g) rest (st.fset.erase s) st.tree)

/-- One `bfs` loop iteration under Python call semantics: the frontier
exhaustion return passes `diagKw` (raises). -/
def bfsStepP (g : Int) (tmo : Nat → Bool) (st : PlainSt) :
    Sum (PyRet × Outcome) PlainSt :=
  match st.frontier with
  | [] =>
    Sum.inl (pyReturn diagKw (PySearchResult.mk [] st.nodes 0 st.maxf false "BFS"),
      Outcome.exhausted)
  | (s, p) :: rest => bfsPopP g tmo st s p rest

/-- `SearchAlgorithms.bfs` under Python call semantics: the initial-goal
short circuit is an all-keyword call to declared parameters only, so it
returns normally. -/
def bfsPy (g : Int) (tmo : Nat → Bool) (s0 : State) (fuel : Nat) : PyRet × Outcome :=
  if s0.is_goal then
    (pyReturn searchResultInitParams (PySearchResult.mk [] 0 0 1 true "BFS"),
      Outcome.success)
  else
    iterateD (bfsStepP g tmo)
      (PyRet.ret (PySearchResult.mk [] 0 0 0 false "BFS"), Outcome.fuelOut) fuel
      (PlainSt.mk [(s0, [])] [s0] [] 0 1 0 [])

/-- `dfsPop` under Python call semantics: the timeout and node-limit returns
pass `explored_nodes=` (`explKw`, raise), the goal return passes all eight
keywords (raises); the depth-cap skip and the expansion continue as in
`dfsPop`. -/
def dfsPopP (g : Int) (tmo : Nat → Bool) (maxDepth : Nat) (st : PlainSt) (s : State)
    (p : List Action) (rest : List (State × List Action)) :
    Sum (PyRet × Outcome) PlainSt :=
  if tmo st.iter then
    Sum.inl (pyReturn explKw (PySearchResult.mk [] st.nodes 0 st.maxf false
      "DFS (timeout)"), Outcome.timedOut)
  else if st.nodes > MAX_NODES then
    Sum.inl (pyReturn explKw (PySearchResult.mk [] st.nodes 0 st.maxf false
      "DFS (node limit)"), Outcome.nodeLimit)
  else if p.length > maxDepth then
    Sum.inr (PlainSt.mk rest (st.fset.erase s) st.explored st.nodes
      (max st.maxf st.frontier.length) (st.iter + 1) st.tree)
  else if s.is_goal then
    Sum.inl (pyReturn fullKw (PySearchResult.mk p (st.nodes + 1) 0
      (max st.maxf st.frontier.length) true "DFS"), Outcome.success)
  else
    let k := dfsKids g s p (setAdd st.explored s) (get_successors s g) rest
      (st.fset.erase s) st.tree
    Sum.inr (PlainSt.mk k.1 k.2.1 (setAdd st.explored s) (st.nodes + 1)
      (max st.maxf st.frontier.length) (st.iter + 1) k.2.2)

/-- One `dfs` loop iteration under Python call semantics: the exhaustion
return is purely positional (well-formed). -/
def dfsStepP (g : Int) (tmo : Nat → Bool) (maxDepth : Nat) (st : PlainSt) :
    Sum (PyRet × Outcome) PlainSt :=
  match st.frontier with
  | [] =>
    Sum.inl (pyReturn [] (PySearchResult.mk [] st.nodes 0 st.maxf false "DFS"),
      Outcome.exhausted)
  | (s, p) :: rest => dfsPopP g tmo maxDepth st s p rest

/-- `SearchAlgorithms.dfs` under Python call semantics. -/
def dfsPy (g : Int) (tmo : Nat → Bool) (maxDepth : Nat) (s0 : State) (fuel : Nat) :
    PyRet × Outcome :=
  if s0.is_goal then
    (pyReturn searchResultInitParams (PySearchResult.mk [] 0 0 1 true "DFS"),
      Outcome.success)
  else
    iterateD (dfsStepP g tmo maxDepth)
      (PyRet.ret (PySearchResult.mk [] 0 0 0 false "DFS"), Outcome.fuelOut) fuel
      (PlainSt.mk [(s0, [])] [s0] [] 0 1 0 [])

/-- `ucsPop` under Python call semantics: all three return sites reachable
here (timeout, node limit, goal) pass undeclared keywords and raise. -/
def ucsPopP (g : Int) (tmo : Nat → Bool) (st : UcsSt) (cost : Nat) (s : State)
    (p : List Action) (rest : List UcsEntry) : Sum (PyRet × Outcome) UcsSt :=
  if tmo st.iter then
    Sum.inl (pyReturn diagKw (PySearchResult.mk [] st.nodes 0 st.maxf false
      "UCS (timeout)"), Outcome.timedOut)
  else if st.nodes > MAX_NODES then
    Sum.inl (pyReturn diagKw (PySearchResult.mk [] st.nodes 0 st.maxf false
      "UCS (node limit)"), Outcome.nodeLimit)
  else if dictAtMost st.expl s cost then
    Sum.inr (UcsSt.mk rest st.expl st.counter st.nodes (max st.maxf st.heap.length)
      (st.iter + 1) st.tree)
  else if s.is_goal then
    Sum.inl (pyReturn fullKw (PySearchResult.mk p (st.nodes + 1) 0
      (max st.maxf st.heap.length) true "UCS"), Outcome.success)
  else
    let k := ucsKids g s p cost (dictInsert st.expl s cost) (get_successors s g)
      rest st.counter st.tree
    Sum.inr (UcsSt.mk k.1 (dictInsert st.expl s cost) k.2.1 (st.nodes + 1)
      (max st.maxf st.heap.length) (st.iter + 1) k.2.2)

/-- One `ucs` loop iteration under Python call semantics: the exhaustion
return also passes `diagKw` (raises), so no return site of `ucs` is
well-formed. -/
def ucsStepP (g : Int) (tmo : Nat → Bool) (st : UcsSt) :
    Sum (PyRet × Outcome) UcsSt :=
  match st.heap with
  | [] =>
    Sum.inl (pyReturn diagKw (PySearchResult.mk [] st.nodes 0 st.maxf false "UCS"),
      Outcome.exhausted)
  | (cost, _, s, p) :: rest => ucsPopP g tmo st cost s p rest

/-- `SearchAlgorithms.ucs` under Python call semantics. -/
def ucsPy (g : Int) (tmo : Nat → Bool) (s0 : State) (fuel : Nat) : PyRet × Outcome :=
  iterateD (ucsStepP g tmo)
    (PyRet.ret (PySearchResult.mk [] 0 0 0 false "UCS"), Outcome.fuelOut) fuel
    (UcsSt.mk [(0, 0, s0, [])] [] 0 0 1 0 [])

/-- `greedyPop` under Python call semantics: the timeout and node-limit
returns are purely positional (well-formed); the goal return passes all
eight keywords (raises). -/
def greedyPopP (g : Int) (tmo : Nat → Bool) (st : GreedySt) (s : State)
    (p : List Action) (rest : List GreedyEntry) : Sum (PyRet × Outcome) GreedySt :=
  if tmo st.iter then
    Sum.inl (pyReturn [] (PySearchResult.mk [] st.nodes 0 st.maxf false
      "Greedy (timeout)"), Outcome.timedOut)
  else if st.nodes > MAX_NODES then
    Sum.inl (pyReturn [] (PySearchResult.mk [] st.nodes 0 st.maxf false
      "Greedy (node limit)"), Outcome.nodeLimit)
  else if s ∈ st.explored then
    Sum.inr (GreedySt.mk rest st.explored st.counter st.nodes
      (max st.maxf st.heap.length) (st.iter + 1) st.tree)
  else if s.is_goal then
    Sum.inl (pyReturn fullKw (PySearchResult.mk p (st.nodes + 1) 0
      (max st.maxf st.heap.length) true "Greedy"), Outcome.success)
  else
    let k := greedyKids g s p (setAdd st.explored s) (get_successors s g)
      rest st.counter st.tree
    Sum.inr (GreedySt.mk k.1 (setAdd st.explored s) k.2.1 (st.nodes + 1)
      (max st.maxf st.heap.length) (st.iter + 1) k.2.2)

/-- One `greedy` loop iteration under Python call semantics: the exhaustion
return passes `diagKw` (raises). -/
def greedyStepP (g : Int) (tmo : Nat → Bool) (st : GreedySt) :
    Sum (PyRet × Outcome) GreedySt :=
  match st.heap with
  | [] =>
    Sum.inl (pyReturn diagKw (PySearchResult.mk [] st.nodes 0 st.maxf false "Greedy"),
      Outcome.exhausted)
  | (_, _, s, p) :: rest => greedyPopP g tmo st s p rest

/-- `SearchAlgorithms.greedy` under Python call semantics. -/
def greedyPy (g : Int) (tmo : Nat → Bool) (s0 : State) (fuel : Nat) : PyRet × Outcome :=
  iterateD (greedyStepP g tmo)
    (PyRet.ret (PySearchResult.mk [] 0 0 0 false "Greedy"), Outcome.fuelOut) fuel
    (GreedySt.mk [(heuristic s0 g, 0, s0, [])] [] 0 0 1 0 [])

/-- `astarPop` under Python call semantics: as with `ucs`, every return site
passes undeclared keywords and raises. -/
def astarPopP (g : Int) (tmo : Nat → Bool) (st : AstarSt) (gacc : Nat) (s : State)
    (p : List Action) (rest : List AstarEntry) : Sum (PyRet × Outcome) AstarSt :=
  if tmo st.iter then
    Sum.inl (pyReturn diagKw (PySearchResult.mk [] st.nodes 0 st.maxf false
      "A* (timeout)"), Outcome.timedOut)
  else if st.nodes > MAX_NODES then
    Sum.inl (pyReturn diagKw (PySearchResult.mk [] st.nodes 0 st.maxf false
      "A* (node limit)"), Outcome.nodeLimit)
  else if dictAtMost st.expl s gacc then
    Sum.inr (AstarSt.mk rest st.expl st.counter st.nodes (max st.maxf st.heap.length)
      (st.iter + 1) st.tree)
  else if s.is_goal then
    Sum.inl (pyReturn fullKw (PySearchResult.mk p (st.nodes + 1) 0
      (max st.maxf st.heap.length) true "A*"), Outcome.success)
  else
    let k := astarKids g s p gacc (dictInsert st.expl s gacc) (get_successors s g)
      rest st.counter st.tree
    Sum.inr (AstarSt.mk k.1 (dictInsert st.expl s gacc) k.2.1 (st.nodes + 1)
      (max st.maxf st.heap.length) (st.iter + 1) k.2.2)

/-- One `astar` loop iteration under Python call semantics: the exhaustion
return passes `diagKw` (raises). -/
def astarStepP (g : Int) (tmo : Nat → Bool) (st : AstarSt) :
    Sum (PyRet × Outcome) AstarSt :=
  match st.heap with
  | [] =>
    Sum.inl (pyReturn diagKw (PySearchResult.mk [] st.nodes 0 st.maxf false "A*"),
      Outcome.exhausted)
  | (_, _, gacc, s, p) :: rest => astarPopP g tmo st gacc s p rest

/-- `SearchAlgorithms.astar` under Python call semantics. -/
def astarPy (g : Int) (tmo : Nat → Bool) (s0 : State) (fuel : Nat) : PyRet × Outcome :=
  iterateD (astarStepP g tmo)
    (PyRet.ret (PySearchResult.mk [] 0 0 0 false "A*"), Outcome.fuelOut) fuel
    (AstarSt.mk [(heuristic s0 g, 0, 0, s0, [])] [] 0 0 1 0 [])

/-- `greedy_nearest_neighbor` under Python call semantics: the outer loop
(`nnLoop`) runs to completion, then the single return site passes all eight
keywords (`nnReturnKwargs`), so the call raises; paired with the leftover
remaining-dirt set so that termination of the loop is part of the value. -/
def greedy_nearest_neighbor_py (initial : State) (g : Int) : PyRet × Finset Pos :=
  let res := nnLoop g initial.dirt_set.card initial.dirt_set (NNAcc.mk initial [] 0 [] [])
  (pyReturn nnReturnKwargs (PySearchResult.mk res.1.path res.1.nodes 0
    initial.dirt_set.card true "Nearest Neighbor"), res.2)

lemma ucsStepP_nil (g : Int) (tmo : Nat → Bool) (st : UcsSt) (hf : st.heap = []) :
    ucsStepP g tmo st = Sum.inl (pyReturn diagKw (PySearchResult.mk [] st.nodes 0
      st.maxf false "UCS"), Outcome.exhausted) := by
  unfold ucsStepP
  rw [hf]

lemma ucsStepP_cons (g : Int) (tmo : Nat → Bool) (st : UcsSt) (cost ctr : Nat)
    (s : State) (p : List Action) (rest : List UcsEntry)
    (hf : st.heap = (cost, ctr, s, p) :: rest) :
    ucsStepP g tmo st = ucsPopP g tmo st cost s p rest := by
  unfold ucsStepP
  rw [hf]

/-- Every value the `ucs` loop body actually returns is a raised
`TypeError`: all four return sites pass undeclared keywords. -/
lemma ucsStepP_ret (g : Int) (tmo : Nat → Bool) (st : UcsSt) (r : PyRet) (o : Outcome)
    (h : ucsStepP g tmo st = Sum.inl (r, o)) : r = PyRet.typeErr := by
  rcases hf : st.heap with _ | ⟨⟨cost, ctr, s, p⟩, rest⟩
  · rw [ucsStepP_nil g tmo st hf] at h
    simp only [Sum.inl.injEq, Prod.mk.injEq] at h
    rw [← h.1]
    exact pyReturn_raise diagKw _ (by decide)
  · rw [ucsStepP_cons g tmo st cost ctr s p rest hf] at h
    unfold ucsPopP at h
    split_ifs at h with h1 h2 h3 h4
    · simp only [Sum.inl.injEq, Prod.mk.injEq] at h
      rw [← h.1]
      exact pyReturn_raise diagKw _ (by decide)
    · simp only [Sum.inl.injEq, Prod.mk.injEq] at h
      rw [← h.1]
      exact pyReturn_raise diagKw _ (by decide)
    · simp only [Sum.inl.injEq, Prod.mk.injEq] at h
      rw [← h.1]
      exact pyReturn_raise fullKw _ (by decide)

/-- A dirt-free initial state at the origin (concrete input of claim C2). -/
def eSt : State := State.mk ((0 : Int), (0 : Int)) (∅ : Finset Pos)

/-- CLAIM C2 (refuted by the constructor bug of C1): on a dirt-free initial
state `bfs` and `dfs` do short-circuit with `success = true`, an empty path
and `nodes_expanded = 0` (their initial-goal returns use declared keywords
only), but `ucs`, `greedy`, `astar` and `greedy_nearest_neighbor` raise
`TypeError` instead of returning: each of them reaches a return site that
passes the undeclared diagnostic keywords. -/
theorem c2_empty_dirt_raises :
    bfsPy 2 (fun _ => false) eSt 5 =
      (PyRet.ret (PySearchResult.mk [] 0 0 1 true "BFS"), Outcome.success) ∧
    dfsPy 2 (fun _ => false) 100 eSt 5 =
      (PyRet.ret (PySearchResult.mk [] 0 0 1 true "DFS"), Outcome.success) ∧
    ucsPy 2 (fun _ => false) eSt 5 = (PyRet.typeErr, Outcome.success) ∧
    greedyPy 2 (fun _ => false) eSt 5 = (PyRet.typeErr, Outcome.success) ∧
    astarPy 2 (fun _ => false) eSt 5 = (PyRet.typeErr, Outcome.success) ∧
    greedy_nearest_neighbor_py eSt 2 = (PyRet.typeErr, (∅ : Finset Pos)) := by
  refine ⟨by decide, by decide, by decide, by decide, by decide, by decide⟩

/-- CLAIM C6 (refuted by the constructor bug of C1): when the wall-clock
deadline fires on the first loop iteration, `bfs` and `greedy` return the
suffixed-name failure results the claim describes (their timeout returns are
purely positional), but `dfs`, `ucs` and `astar` raise `TypeError` at their
timeout returns (they pass undeclared diagnostic keywords), so a resource
cutoff is not, in general, reported through a returned result at all. -/
theorem c6_limit_returns_raise :
    bfsPy 2 (fun _ => true) wSt 5 =
      (PyRet.ret (PySearchResult.mk [] 0 0 1 false "BFS (timeout)"),
        Outcome.timedOut) ∧
    greedyPy 2 (fun _ => true) wSt 5 =
      (PyRet.ret (PySearchResult.mk [] 0 0 1 false "Greedy (timeout)"),
        Outcome.timedOut) ∧
    dfsPy 2 (fun _ => true) 100 wSt 5 = (PyRet.typeErr, Outcome.timedOut) ∧
    ucsPy 2 (fun _ => true) wSt 5 = (PyRet.typeErr, Outcome.timedOut) ∧
    astarPy 2 (fun _ => true) wSt 5 = (PyRet.typeErr, Outcome.timedOut) := by
  refine ⟨by decide, by decide, by decide, by decide, by decide⟩

/-- CLAIM C3 (refuted by the constructor bug of C1): under actual Python
call semantics `ucs` never returns a `SearchResult` at all — each of its
four return sites passes the undeclared keywords `explored_nodes=` and
`search_tree=` and raises `TypeError` — so no run of the program exhibits
the claimed scenario of BFS and UCS both returning `success = true` with
shortest paths: every `ucsPy` run either raises or is still looping when the
fuel runs out. -/
theorem c3_ucs_raises (g : Int) (tmo : Nat → Bool) (s0 : State) (fuel : Nat) :
    (ucsPy g tmo s0 fuel).1 = PyRet.typeErr ∨
    (ucsPy g tmo s0 fuel).2 = Outcome.fuelOut := by
  have hucs : ucsPy g tmo s0 fuel = iterateD (ucsStepP g tmo)
      (PyRet.ret (PySearchResult.mk [] 0 0 0 false "UCS"), Outcome.fuelOut) fuel
      (UcsSt.mk [(0, 0, s0, [])] [] 0 0 1 0 []) := rfl
  rw [hucs]
  exact iterateD_inv (ucsStepP g tmo)
    (PyRet.ret (PySearchResult.mk [] 0 0 0 false "UCS"), Outcome.fuelOut)
    (fun _ => True)
    (fun ro => ro.1 = PyRet.typeErr ∨ ro.2 = Outcome.fuelOut)
    (Or.inr rfl)
    (fun stx rr _ hstep => Or.inl (ucsStepP_ret g tmo stx rr.1 rr.2 (by rw [hstep])))
    (fun _ _ _ _ => trivial)
    fuel (UcsSt.mk [(0, 0, s0, [])] [] 0 0 1 0 []) trivial

/-- CLAIM C5 (refuted by the constructor bug of C1): for every initial state
(in particular those satisfying the claim's in-bounds hypotheses) the outer
loop of `greedy_nearest_neighbor` terminates with the whole remaining-dirt
set cleared, but the single `return SearchResult(...)` then raises
`TypeError` (it passes `explored_nodes=` and `search_tree=`), so the
function never returns a result with `success = true`. -/
theorem c5_nn_raises (s : State) (g : Int) :
    greedy_nearest_neighbor_py s g = (PyRet.typeErr, (∅ : Finset Pos)) := by
  have h2 : (nnLoop g s.dirt_set.card s.dirt_set (NNAcc.mk s [] 0 [] [])).2 = ∅ :=
    nnLoop_clears g s.dirt_set.card s.dirt_set _ (le_refl _)
  show (pyReturn nnReturnKwargs _, (nnLoop g s.dirt_set.card s.dirt_set
    (NNAcc.mk s [] 0 [] [])).2) = _
  rw [h2, pyReturn_raise nnReturnKwargs _ (by decide)]

/-- The outcome/result correspondence claimed for one strategy: a
governor-triggered return carries `success = false` and the suffixed
algorithm name, frontier exhaustion carries `success = false` and the
unmodified name, and a success return carries `success = true` and the
unmodified name. -/
def OutcomeParts (base : String) (r : SearchResult) (o : Outcome) : Prop :=
  (o = Outcome.timedOut → r.success = false ∧ r.algorithm_name = base ++ " (timeout)") ∧
  (o = Outcome.nodeLimit → r.success = false ∧ r.algorithm_name = base ++ " (node limit)") ∧
  (o = Outcome.exhausted → r.success = false ∧ r.algorithm_name = base) ∧
  (o = Outcome.success → r.success = true ∧ r.algorithm_name = base)

/-- The three failure names of one strategy are pairwise distinguishable,
and distinguishable from the unmodified name. -/
def NamesDistinct (base : String) : Prop :=
  base ++ " (timeout)" ≠ base ∧ base ++ " (node limit)" ≠ base ∧
  base ++ " (timeout)" ≠ base ++ " (node limit)"

lemma OutcomeParts.timedOut_case (base : String) (r : SearchResult)
    (hsucc : r.success = false) (hname : r.algorithm_name = base ++ " (timeout)") :
    OutcomeParts base r Outcome.timedOut := by
  refine ⟨fun _ => ⟨hsucc, hname⟩, ?_, ?_, ?_⟩ <;> intro h <;> exact absurd h (by decide)

lemma OutcomeParts.nodeLimit_case (base : String) (r : SearchResult)
    (hsucc : r.success = false) (hname : r.algorithm_name = base ++ " (node limit)") :
    OutcomeParts base r Outcome.nodeLimit := by
  refine ⟨?_, fun _ => ⟨hsucc, hname⟩, ?_, ?_⟩ <;> intro h <;> exact absurd h (by decide)

lemma OutcomeParts.exhausted_case (base : String) (r : SearchResult)
    (hsucc : r.success = false) (hname : r.algorithm_name = base) :
    OutcomeParts base r Outcome.exhausted := by
  refine ⟨?_, ?_, fun _ => ⟨hsucc, hname⟩, ?_⟩ <;> intro h <;> exact absurd h (by decide)

lemma OutcomeParts.success_case (base : String) (r : SearchResult)
    (hsucc : r.success = true) (hname : r.algorithm_name = base) :
    OutcomeParts base r Outcome.success := by
  refine ⟨?_, ?_, ?_, fun _ => ⟨hsucc, hname⟩⟩ <;> intro h <;> exact absurd h (by decide)

lemma OutcomeParts.fuelOut_case (base : String) (r : SearchResult) :
    OutcomeParts base r Outcome.fuelOut := by
  refine ⟨?_, ?_, ?_, ?_⟩ <;> intro h <;> exact absurd h (by decide)

lemma bfsKids_ret (g : Int) (parent : State) (path : List Action) (n m : Nat)
    (exp : List State) :
    ∀ (cs : List (Action × State)) (fr : List (State × List Action)) (fs : List State)
      (tr : List Edge) (r : SearchResult) (o : Outcome),
      bfsKids g parent path n m exp cs fr fs tr = Sum.inl (r, o) →
      o = Outcome.success ∧ r.success = true ∧ r.algorithm_name = "BFS" := by
  intro cs
  induction cs with
  | nil =>
    intro fr fs tr r o h
    exact absurd h (by simp [bfsKids])
  | cons e rest ih =>
    intro fr fs tr r o h
    obtain ⟨a, c⟩ := e
    unfold bfsKids at h
    split_ifs at h with h1 h2
    · simp only [Sum.inl.injEq, Prod.mk.injEq] at h
      obtain ⟨hr, ho⟩ := h
      rw [← hr, ← ho]
      exact ⟨rfl, rfl, rfl⟩
    · exact ih _ _ _ r o h
    · exact ih _ _ _ r o h

lemma bfsStep_shape (g : Int) (tmo : Nat → Bool) (st : PlainSt) (r : SearchResult)
    (o : Outcome) (h : bfsStep g tmo st = Sum.inl (r, o)) : OutcomeParts "BFS" r o := by
  rcases hf : st.frontier with _ | ⟨⟨s, p⟩, rest⟩
  · rw [bfsStep_nil g tmo st hf] at h
    simp only [Sum.inl.injEq, Prod.mk.injEq] at h
    obtain ⟨hr, ho⟩ := h
    rw [← hr, ← ho]
    exact OutcomeParts.exhausted_case _ _ rfl rfl
  · rw [bfsStep_cons g tmo st s p rest hf] at h
    unfold bfsPop at h
    split_ifs at h with h1 h2
    · simp only [Sum.inl.injEq, Prod.mk.injEq] at h
      obtain ⟨hr, ho⟩ := h
      rw [← hr, ← ho]
      exact OutcomeParts.timedOut_case _ _ rfl rfl
    · simp only [Sum.inl.injEq, Prod.mk.injEq] at h
      obtain ⟨hr, ho⟩ := h
      rw [← hr, ← ho]
      exact OutcomeParts.nodeLimit_case _ _ rfl rfl
    · rcases hk : bfsKids g s p (st.nodes + 1) (max st.maxf st.frontier.length)
          (setAdd st.explored s) (get_successors s g) rest (st.fset.erase s) st.tree with
        r' | k
      · rw [hk, Sum.elim_inl, Sum.inl.injEq] at h
        obtain ⟨r1, o1⟩ := r'
        obtain ⟨ho1, hs1, hn1⟩ := bfsKids_ret g s p _ _ _ _ _ _ _ r1 o1 hk
        cases h
        rw [ho1]
        exact OutcomeParts.success_case _ _ hs1 hn1
      · rw [hk, Sum.elim_inr] at h
        exact absurd h (by simp)

lemma dfsStep_shape (g : Int) (tmo : Nat → Bool) (maxDepth : Nat) (st : PlainSt)
    (r : SearchResult) (o : Outcome) (h : dfsStep g tmo maxDepth st = Sum.inl (r, o)) :
    OutcomeParts "DFS" r o := by
  rcases hf : st.frontier with _ | ⟨⟨s, p⟩, rest⟩
  · rw [dfsStep_nil g tmo maxDepth st hf] at h
    simp only [Sum.inl.injEq, Prod.mk.injEq] at h
    obtain ⟨hr, ho⟩ := h
    rw [← hr, ← ho]
    exact OutcomeParts.exhausted_case _ _ rfl rfl
  · rw [dfsStep_cons g tmo maxDepth st s p rest hf] at h
    unfold dfsPop at h
    split_ifs at h with h1 h2 h3 h4
    · simp only [Sum.inl.injEq, Prod.mk.injEq] at h
      obtain ⟨hr, ho⟩ := h
      rw [← hr, ← ho]
      exact OutcomeParts.timedOut_case _ _ rfl rfl
    · simp only [Sum.inl.injEq, Prod.mk.injEq] at h
      obtain ⟨hr, ho⟩ := h
      rw [← hr, ← ho]
      exact OutcomeParts.nodeLimit_case _ _ rfl rfl
    · simp only [Sum.inl.injEq, Prod.mk.injEq] at h
      obtain ⟨hr, ho⟩ := h
      rw [← hr, ← ho]
      exact OutcomeParts.success_case _ _ rfl rfl

lemma ucsStep_shape (g : Int) (tmo : Nat → Bool) (st : UcsSt) (r : SearchResult)
    (o : Outcome) (h : ucsStep g tmo st = Sum.inl (r, o)) : OutcomeParts "UCS" r o := by
  rcases hf : st.heap with _ | ⟨⟨cost, ctr, s, p⟩, rest⟩
  · rw [ucsStep_nil g tmo st hf] at h
    simp only [Sum.inl.injEq, Prod.mk.injEq] at h
    obtain ⟨hr, ho⟩ := h
    rw [← hr, ← ho]
    exact OutcomeParts.exhausted_case _ _ rfl rfl
  · rw [ucsStep_cons g tmo st cost ctr s p rest hf] at h
    unfold ucsPop at h
    split_ifs at h with h1 h2 h3 h4
    · simp only [Sum.inl.injEq, Prod.mk.injEq] at h
      obtain ⟨hr, ho⟩ := h
      rw [← hr, ← ho]
      exact OutcomeParts.timedOut_case _ _ rfl rfl
    · simp only [Sum.inl.injEq, Prod.mk.injEq] at h
      obtain ⟨hr, ho⟩ := h
      rw [← hr, ← ho]
      exact OutcomeParts.nodeLimit_case _ _ rfl rfl
    · simp only [Sum.inl.injEq, Prod.mk.injEq] at h
      obtain ⟨hr, ho⟩ := h
      rw [← hr, ← ho]
      exact OutcomeParts.success_case _ _ rfl rfl

lemma greedyStep_shape (g : Int) (tmo : Nat → Bool) (st : GreedySt) (r : SearchResult)
    (o : Outcome) (h : greedyStep g tmo st = Sum.inl (r, o)) : OutcomeParts "Greedy" r o := by
  rcases hf : st.heap with _ | ⟨⟨hv, ctr, s, p⟩, rest⟩
  · rw [greedyStep_nil g tmo st hf] at h
    simp only [Sum.inl.injEq, Prod.mk.injEq] at h
    obtain ⟨hr, ho⟩ := h
    rw [← hr, ← ho]
    exact OutcomeParts.exhausted_case _ _ rfl rfl
  · rw [greedyStep_cons g tmo st hv ctr s p rest hf] at h
    unfold greedyPop at h
    split_ifs at h with h1 h2 h3 h4
    · simp only [Sum.inl.injEq, Prod.mk.injEq] at h
      obtain ⟨hr, ho⟩ := h
      rw [← hr, ← ho]
      exact OutcomeParts.timedOut_case _ _ rfl rfl
    · simp only [Sum.inl.injEq, Prod.mk.injEq] at h
      obtain ⟨hr, ho⟩ := h
      rw [← hr, ← ho]
      exact OutcomeParts.nodeLimit_case _ _ rfl rfl
    · simp only [Sum.inl.injEq, Prod.mk.injEq] at h
      obtain ⟨hr, ho⟩ := h
      rw [← hr, ← ho]
      exact OutcomeParts.success_case _ _ rfl rfl

lemma astarStep_shape (g : Int) (tmo : Nat → Bool) (st : AstarSt) (r : SearchResult)
    (o : Outcome) (h : astarStep g tmo st = Sum.inl (r, o)) : OutcomeParts "A*" r o := by
  rcases hf : st.heap with _ | ⟨⟨fv, ctr, gacc, s, p⟩, rest⟩
  · rw [astarStep_nil g tmo st hf] at h
    simp only [Sum.inl.injEq, Prod.mk.injEq] at h
    obtain ⟨hr, ho⟩ := h
    rw [← hr, ← ho]
    exact OutcomeParts.exhausted_case _ _ rfl rfl
  · rw [astarStep_cons g tmo st fv ctr gacc s p rest hf] at h
    unfold astarPop at h
    split_ifs at h with h1 h2 h3 h4
    · simp only [Sum.inl.injEq, Prod.mk.injEq] at h
      obtain ⟨hr, ho⟩ := h
      rw [← hr, ← ho]
      exact OutcomeParts.timedOut_case _ _ rfl rfl
    · simp only [Sum.inl.injEq, Prod.mk.injEq] at h
      obtain ⟨hr, ho⟩ := h
      rw [← hr, ← ho]
      exact OutcomeParts.nodeLimit_case _ _ rfl rfl
    · simp only [Sum.inl.injEq, Prod.mk.injEq] at h
      obtain ⟨hr, ho⟩ := h
      rw [← hr, ← ho]
      exact OutcomeParts.success_case _ _ rfl rfl

lemma bfs_outcome (g : Int) (tmo : Nat → Bool) (s0 : State) (fuel : Nat) :
    OutcomeParts "BFS" (bfs g tmo s0 fuel).1 (bfs g tmo s0 fuel).2 := by
  unfold bfs
  split
  · exact OutcomeParts.success_case _ _ rfl rfl
  · exact iterateD_inv (bfsStep g tmo)
      (SearchResult.mk [] 0 0 0 false "BFS" [] [], Outcome.fuelOut)
      (fun _ => True) (fun ro => OutcomeParts "BFS" ro.1 ro.2)
      (OutcomeParts.fuelOut_case _ _)
      (fun s r _ hstep => bfsStep_shape g tmo s r.1 r.2 (by rw [hstep]))
      (fun _ _ _ _ => trivial)
      fuel (PlainSt.mk [(s0, [])] [s0] [] 0 1 0 []) trivial

lemma dfs_outcome (g : Int) (tmo : Nat → Bool) (maxDepth : Nat) (s0 : State) (fuel : Nat) :
    OutcomeParts "DFS" (dfs g tmo maxDepth s0 fuel).1 (dfs g tmo maxDepth s0 fuel).2 := by
  unfold dfs
  split
  · exact OutcomeParts.success_case _ _ rfl rfl
  · exact iterateD_inv (dfsStep g tmo maxDepth)
      (SearchResult.mk [] 0 0 0 false "DFS" [] [], Outcome.fuelOut)
      (fun _ => True) (fun ro => OutcomeParts "DFS" ro.1 ro.2)
      (OutcomeParts.fuelOut_case _ _)
      (fun s r _ hstep => dfsStep_shape g tmo maxDepth s r.1 r.2 (by rw [hstep]))
      (fun _ _ _ _ => trivial)
      fuel (PlainSt.mk [(s0, [])] [s0] [] 0 1 0 []) trivial

lemma ucs_outcome (g : Int) (tmo : Nat → Bool) (s0 : State) (fuel : Nat) :
    OutcomeParts "UCS" (ucs g tmo s0 fuel).1 (ucs g tmo s0 fuel).2 := by
  unfold ucs
  exact iterateD_inv (ucsStep g tmo)
    (SearchResult.mk [] 0 0 0 false "UCS" [] [], Outcome.fuelOut)
    (fun _ => True) (fun ro => OutcomeParts "UCS" ro.1 ro.2)
    (OutcomeParts.fuelOut_case _ _)
    (fun s r _ hstep => ucsStep_shape g tmo s r.1 r.2 (by rw [hstep]))
    (fun _ _ _ _ => trivial)
    fuel (UcsSt.mk [(0, 0, s0, [])] [] 0 0 1 0 []) trivial

lemma greedy_outcome (g : Int) (tmo : Nat → Bool) (s0 : State) (fuel : Nat) :
    OutcomeParts "Greedy" (greedy g tmo s0 fuel).1 (greedy g tmo s0 fuel).2 := by
  unfold greedy
  exact iterateD_inv (greedyStep g tmo)
    (SearchResult.mk [] 0 0 0 false "Greedy" [] [], Outcome.fuelOut)
    (fun _ => True) (fun ro => OutcomeParts "Greedy" ro.1 ro.2)
    (OutcomeParts.fuelOut_case _ _)
    (fun s r _ hstep => greedyStep_shape g tmo s r.1 r.2 (by rw [hstep]))
    (fun _ _ _ _ => trivial)
    fuel (GreedySt.mk [(heuristic s0 g, 0, s0, [])] [] 0 0 1 0 []) trivial

lemma astar_outcome (g : Int) (tmo : Nat → Bool) (s0 : State) (fuel : Nat) :
    OutcomeParts "A*" (astar g tmo s0 fuel).1 (astar g tmo s0 fuel).2 := by
  unfold astar
  exact iterateD_inv (astarStep g tmo)
    (SearchResult.mk [] 0 0 0 false "A*" [] [], Outcome.fuelOut)
    (fun _ => True) (fun ro => OutcomeParts "A*" ro.1 ro.2)
    (OutcomeParts.fuelOut_case _ _)
    (fun s r _ hstep => astarStep_shape g tmo s r.1 r.2 (by rw [hstep]))
    (fun _ _ _ _ => trivial)
    fuel (AstarSt.mk [(heuristic s0 g, 0, 0, s0, [])] [] 0 0 1 0 []) trivial

lemma iterateD_succ {A B : Type} (step : A → Sum B A) (d : B) (n : Nat) (s : A) :
    iterateD step d (n + 1) s =
      match step s with
      | Sum.inl r => r
      | Sum.inr s' => iterateD step d n s' := rfl

lemma is_goal_of_empty (s : State) (hd : s.dirt_set = ∅) : s.is_goal = true := by
  unfold State.is_goal
  rw [hd]
  simp

lemma bfs_on_goal (g : Int) (tmo : Nat → Bool) (s : State) (fuel : Nat)
    (hgoal : s.is_goal = true) :
    bfs g tmo s fuel = (SearchResult.mk [] 0 0 1 true "BFS" [] [], Outcome.success) := by
  unfold bfs
  rw [if_pos hgoal]

lemma dfs_on_goal (g : Int) (tmo : Nat → Bool) (maxDepth : Nat) (s : State) (fuel : Nat)
    (hgoal : s.is_goal = true) :
    dfs g tmo maxDepth s fuel = (SearchResult.mk [] 0 0 1 true "DFS" [] [], Outcome.success) := by
  unfold dfs
  rw [if_pos hgoal]

lemma ucs_on_goal (g : Int) (tmo : Nat → Bool) (s : State) (n : Nat)
    (hgoal : s.is_goal = true) (htmo : tmo 0 = false) :
    ucs g tmo s (n + 1) =
      (SearchResult.mk [] 1 0 1 true "UCS" [s.robot_pos] [], Outcome.success) := by
  have hstep : ucsStep g tmo (UcsSt.mk [(0, 0, s, [])] [] 0 0 1 0 []) =
      Sum.inl (SearchResult.mk [] 1 0 1 true "UCS" [s.robot_pos] [], Outcome.success) := by
    rw [ucsStep_cons g tmo (UcsSt.mk [(0, 0, s, [])] [] 0 0 1 0 []) 0 0 s [] [] rfl]
    unfold ucsPop
    rw [if_neg (by simp [htmo]), if_neg (by show ¬((0 : Nat) > MAX_NODES); decide),
      if_neg (by simp [dictAtMost, lookupD]), if_pos hgoal]
    rfl
  show iterateD (ucsStep g tmo)
    (SearchResult.mk [] 0 0 0 false "UCS" [] [], Outcome.fuelOut) (n + 1)
    (UcsSt.mk [(0, 0, s, [])] [] 0 0 1 0 []) = _
  rw [iterateD_succ, hstep]

lemma greedy_on_goal (g : Int) (tmo : Nat → Bool) (s : State) (n : Nat)
    (hgoal : s.is_goal = true) (htmo : tmo 0 = false) :
    greedy g tmo s (n + 1) =
      (SearchResult.mk [] 1 0 1 true "Greedy" [s.robot_pos] [], Outcome.success) := by
  have hstep : greedyStep g tmo (GreedySt.mk [(heuristic s g, 0, s, [])] [] 0 0 1 0 []) =
      Sum.inl (SearchResult.mk [] 1 0 1 true "Greedy" [s.robot_pos] [], Outcome.success) := by
    rw [greedyStep_cons g tmo (GreedySt.mk [(heuristic s g, 0, s, [])] [] 0 0 1 0 [])
      (heuristic s g) 0 s [] [] rfl]
    unfold greedyPop
    rw [if_neg (by simp [htmo]), if_neg (by show ¬((0 : Nat) > MAX_NODES); decide),
      if_neg (by simp), if_pos hgoal]
    rfl
  show iterateD (greedyStep g tmo)
    (SearchResult.mk [] 0 0 0 false "Greedy" [] [], Outcome.fuelOut) (n + 1)
    (GreedySt.mk [(heuristic s g, 0, s, [])] [] 0 0 1 0 []) = _
  rw [iterateD_succ, hstep]

lemma astar_on_goal (g : Int) (tmo : Nat → Bool) (s : State) (n : Nat)
    (hgoal : s.is_goal = true) (htmo : tmo 0 = false) :
    astar g tmo s (n + 1) =
      (SearchResult.mk [] 1 0 1 true "A*" [s.robot_pos] [], Outcome.success) := by
  have hstep : astarStep g tmo (AstarSt.mk [(heuristic s g, 0, 0, s, [])] [] 0 0 1 0 []) =
      Sum.inl (SearchResult.mk [] 1 0 1 true "A*" [s.robot_pos] [], Outcome.success) := by
    rw [astarStep_cons g tmo (AstarSt.mk [(heuristic s g, 0, 0, s, [])] [] 0 0 1 0 [])
      (heuristic s g) 0 0 s [] [] rfl]
    unfold astarPop
    rw [if_neg (by simp [htmo]), if_neg (by show ¬((0 : Nat) > MAX_NODES); decide),
      if_neg (by simp [dictAtMost, lookupD]), if_pos hgoal]
    rfl
  show iterateD (astarStep g tmo)
    (SearchResult.mk [] 0 0 0 false "A*" [] [], Outcome.fuelOut) (n + 1)
    (AstarSt.mk [(heuristic s g, 0, 0, s, [])] [] 0 0 1 0 []) = _
  rw [iterateD_succ, hstep]

lemma nn_on_empty (s : State) (g : Int) (hd : s.dirt_set = ∅) :
    greedy_nearest_neighbor s g = SearchResult.mk [] 0 0 0 true "Nearest Neighbor" [] [] := by
  unfold greedy_nearest_neighbor
  rw [hd]
  rfl

/-- Deterministic execution of an action sequence through the transition
function: each action must match a successor of the current state (an action
with no matching successor makes the whole sequence invalid). -/
def execPath (g : Int) : State → List Action → Option State
  | s, [] => some s
  | s, a :: rest =>
    match matchAction (get_successors s g) a with
    | some t => execPath g t rest
    | none => none

/-- Some goal state is reachable from `s0` by a valid action sequence of
length `n`. -/
def GoalPathLen (g : Int) (s0 : State) (n : Nat) : Prop :=
  ∃ p t, p.length = n ∧ execPath g s0 p = some t ∧ t.is_goal = true

/-- `n` is the minimal length of a valid action sequence from `s0` to a goal
state. -/
def MinGoalLen (g : Int) (s0 : State) (n : Nat) : Prop :=
  GoalPathLen g s0 n ∧ ∀ m, GoalPathLen g s0 m → n ≤ m

lemma minGoalLen_unique (g : Int) (s0 : State) (n m : Nat)
    (hn : MinGoalLen g s0 n) (hm : MinGoalLen g s0 m) : n = m :=
  le_antisymm (hn.2 m hm.1) (hm.2 n hn.1)

lemma matchAction_mem (l : List (Action × State)) (a : Action) (c : State)
    (h : matchAction l a = some c) : (a, c) ∈ l := by
  induction l with
  | nil => exact absurd h (by simp [matchAction])
  | cons e rest ih =>
    obtain ⟨act, t⟩ := e
    unfold matchAction at h
    split_ifs at h with hact
    · have htc : t = c := Option.some.inj h
      rw [← hact, ← htc]
      exact List.mem_cons_self _ _
    · exact List.mem_cons.2 (Or.inr (ih h))

lemma matchAction_eq_of_mem (l : List (Action × State)) (a : Action) (c : State)
    (hnd : (l.map Prod.fst).Nodup) (hm : (a, c) ∈ l) : matchAction l a = some c := by
  induction l with
  | nil => exact absurd hm (List.not_mem_nil _)
  | cons e rest ih =>
    obtain ⟨act, t⟩ := e
    rw [List.map_cons, List.nodup_cons] at hnd
    rcases List.mem_cons.1 hm with h | h
    · obtain ⟨ha, hc⟩ := Prod.mk.injEq .. ▸ h
      unfold matchAction
      rw [if_pos (by rw [ha])]
      rw [hc]
    · have hne : act ≠ a := by
        intro he
        exact hnd.1 (he ▸ List.mem_map.2 ⟨(a, c), h, rfl⟩)
      unfold matchAction
      rw [if_neg hne]
      exact ih hnd.2 h

lemma succs_keys_nodup (s : State) (g : Int) :
    ((get_successors s g).map Prod.fst).Nodup := by
  unfold get_successors
  split
  · rw [List.map_append]
    refine List.Nodup.append ?_ (by simp) ?_
    · have : ((moveCandidates s).map Prod.fst).Nodup := by
        simp [moveCandidates]
      have hsub : ((((moveCandidates s).filter
          (fun m => decide (InB g m.2))).map (fun m => (m.1, State.mk m.2 s.dirt_set))).map
            Prod.fst).Sublist ((moveCandidates s).map Prod.fst) := by
        rw [List.map_map]
        have h1 : (((moveCandidates s).filter (fun m => decide (InB g m.2))).map
            (Prod.fst ∘ fun m => (m.1, State.mk m.2 s.dirt_set))) =
            (((moveCandidates s).filter (fun m => decide (InB g m.2))).map Prod.fst) := by
          apply List.map_congr_left
          intro x _
          rfl
        rw [h1]
        exact List.Sublist.map Prod.fst (List.filter_sublist _)
      exact List.Nodup.sublist hsub this
    · intro x hx hy
      have hxs : x = Action.suck := by simpa using hy
      rw [hxs] at hx
      rcases List.mem_map.1 hx with ⟨e, he, hfst⟩
      rcases List.mem_map.1 he with ⟨m0, hm0, hmm⟩
      rw [← hmm] at hfst
      have hm1 : m0.1 = Action.suck := hfst
      have hmem : m0 ∈ moveCandidates s := List.mem_of_mem_filter hm0
      have hsm : (Action.suck, m0.2) = m0 := by
        calc (Action.suck, m0.2) = (m0.1, m0.2) := by rw [hm1]
          _ = m0 := rfl
      exact suck_not_mem_moveCandidates s m0.2 (hsm ▸ hmem)
  · have : ((moveCandidates s).map Prod.fst).Nodup := by
      simp [moveCandidates]
    have hsub : ((((moveCandidates s).filter
        (fun m => decide (InB g m.2))).map (fun m => (m.1, State.mk m.2 s.dirt_set))).map
          Prod.fst).Sublist ((moveCandidates s).map Prod.fst) := by
      rw [List.map_map]
      have h1 : (((moveCandidates s).filter (fun m => decide (InB g m.2))).map
          (Prod.fst ∘ fun m => (m.1, State.mk m.2 s.dirt_set))) =
          (((moveCandidates s).filter (fun m => decide (InB g m.2))).map Prod.fst) := by
        apply List.map_congr_left
        intro x _
        rfl
      rw [h1]
      exact List.Sublist.map Prod.fst (List.filter_sublist _)
    exact List.Nodup.sublist hsub this

lemma matchAction_iff (s : State) (g : Int) (a : Action) (c : State) :
    matchAction (get_successors s g) a = some c ↔ (a, c) ∈ get_successors s g :=
  ⟨matchAction_mem _ a c, matchAction_eq_of_mem _ a c (succs_keys_nodup s g)⟩

lemma execPath_append (g : Int) (p1 p2 : List Action) :
    ∀ s : State, execPath g s (p1 ++ p2) = (execPath g s p1).bind (fun u => execPath g u p2) := by
  induction p1 with
  | nil => intro s; rfl
  | cons a rest ih =>
    intro s
    have hL : execPath g s ((a :: rest) ++ p2) =
        (match matchAction (get_successors s g) a with
         | some t => execPath g t (rest ++ p2)
         | none => none) := rfl
    have hR : execPath g s (a :: rest) =
        (match matchAction (get_successors s g) a with
         | some t => execPath g t rest
         | none => none) := rfl
    rw [hL, hR]
    rcases hm : matchAction (get_successors s g) a with _ | t
    · rfl
    · show execPath g t (rest ++ p2) = (execPath g t rest).bind fun u => execPath g u p2
      exact ih t

lemma execPath_take_isSome (g : Int) (s0 : State) (q : List Action) (t : State)
    (hq : execPath g s0 q = some t) (j : Nat) :
    ∃ u, execPath g s0 (q.take j) = some u := by
  have hsplit : q = q.take j ++ q.drop j := (List.take_append_drop j q).symm
  rw [hsplit, execPath_append] at hq
  rcases hu : execPath g s0 (q.take j) with _ | u
  · rw [hu] at hq
    exact absurd hq (by simp)
  · exact ⟨u, rfl⟩

lemma exec_boundary (g : Int) (s0 : State) (S : State → Prop) (q : List Action) (t : State)
    (hq : execPath g s0 q = some t) (h0 : S s0) (ht : ¬ S t) :
    ∃ j, j < q.length ∧ ∃ u w a,
      execPath g s0 (q.take j) = some u ∧ S u ∧
      execPath g s0 (q.take (j + 1)) = some w ∧ ¬ S w ∧
      matchAction (get_successors u g) a = some w := by
  classical
  set P : Nat → Prop := fun i => ∃ u, execPath g s0 (q.take i) = some u ∧ S u with hP
  have hP0 : P 0 := ⟨s0, by simp [execPath], h0⟩
  set j := Nat.findGreatest P q.length with hj
  have hPj : P j := Nat.findGreatest_spec (Nat.zero_le _) hP0
  have hjle : j ≤ q.length := Nat.findGreatest_le _
  have hjlt : j < q.length := by
    rcases Nat.lt_or_ge j q.length with h | h
    · exact h
    · exfalso
      have hje : j = q.length := le_antisymm hjle h
      rcases hPj with ⟨u, hu, hSu⟩
      rw [hje, List.take_length] at hu
      rw [hq] at hu
      exact ht (Option.some.inj hu ▸ hSu)
  have hnPj1 : ¬ P (j + 1) :=
    Nat.findGreatest_is_greatest (Nat.lt_succ_self j) hjlt
  rcases hPj with ⟨u, hu, hSu⟩
  rcases execPath_take_isSome g s0 q t hq (j + 1) with ⟨w, hw⟩
  have hSw : ¬ S w := fun hcon => hnPj1 ⟨w, hw, hcon⟩
  set a := q.get ⟨j, hjlt⟩ with ha
  have hgj : q[j]? = some a := by
    rw [List.getElem?_eq_getElem hjlt]
    rfl
  have htake : q.take (j + 1) = q.take j ++ [a] := by
    rw [List.take_succ, hgj]
    rfl
  rw [htake, execPath_append, hu] at hw
  refine ⟨j, hjlt, u, w, a, hu, hSu, ?_, hSw, ?_⟩
  · rw [htake, execPath_append, hu]
    exact hw
  · show matchAction (get_successors u g) a = some w
    have : execPath g u [a] = some w := hw
    show _
    rcases hm : matchAction (get_successors u g) a with _ | v
    · exfalso
      unfold execPath at this
      rw [hm] at this
      exact absurd this (by simp)
    · unfold execPath at this
      rw [hm] at this
      show some v = some w
      exact this

lemma mem_setAdd (l : List State) (s t : State) :
    t ∈ setAdd l s ↔ t ∈ l ∨ t = s := by
  unfold setAdd
  split
  · next hin =>
    constructor
    · exact fun h => Or.inl h
    · rintro (h | h)
      · exact h
      · rw [h]; exact hin
  · simp

lemma list_pairwise_of_all {A : Type} (R : A → A → Prop) :
    ∀ l : List A, (∀ x ∈ l, ∀ y ∈ l, R x y) → l.Pairwise R := by
  intro l
  induction l with
  | nil => intro _; exact List.Pairwise.nil
  | cons x xs ih =>
    intro h
    refine List.Pairwise.cons ?_ (ih ?_)
    · intro y hy
      exact h x (List.mem_cons_self _ _) y (List.mem_cons.2 (Or.inr hy))
    · intro a ha b hb
      exact h a (List.mem_cons.2 (Or.inr ha)) b (List.mem_cons.2 (Or.inr hb))

/-- The loop invariant of the embedded `bfs` (for a non-goal initial state):
frontier entries carry valid shortest paths; entry lengths are sorted and
span at most two consecutive values; `frontier_set` mirrors the frontier;
expanded states have all successors discovered; the start state is
discovered; and no discovered state is a goal (children are goal-tested at
generation time). -/
structure BfsInv (g : Int) (s0 : State) (st : PlainSt) : Prop where
  valid : ∀ e ∈ st.frontier, execPath g s0 e.2 = some e.1
  minimal : ∀ e ∈ st.frontier, ∀ q, execPath g s0 q = some e.1 → e.2.length ≤ q.length
  sorted : st.frontier.Pairwise (fun e1 e2 => e1.2.length ≤ e2.2.length)
  twoLevel : ∀ e0 rest, st.frontier = e0 :: rest → ∀ e ∈ st.frontier, e.2.length ≤ e0.2.length + 1
  fsetEq : ∀ t, t ∈ st.fset ↔ ∃ p, (t, p) ∈ st.frontier
  fnodup : (st.frontier.map Prod.fst).Nodup
  fsnodup : st.fset.Nodup
  closed : ∀ u ∈ st.explored, ∀ a c, (a, c) ∈ get_successors u g → c ∈ st.explored ∨ c ∈ st.fset
  start : s0 ∈ st.explored ∨ s0 ∈ st.fset
  egoal : ∀ u ∈ st.explored, u.is_goal = false
  fgoal : ∀ e ∈ st.frontier, e.1.is_goal = false

lemma bfs_crossing (g : Int) (s0 : State) (st : PlainSt) (inv : BfsInv g s0 st)
    (e0 : State × List Action) (rest : List (State × List Action))
    (hf : st.frontier = e0 :: rest) (q : List Action) (t : State)
    (hq : execPath g s0 q = some t) (hte : t ∉ st.explored) (htf : t ∉ st.fset) :
    e0.2.length + 1 ≤ q.length := by
  have ht : ¬ (t ∈ st.explored ∨ t ∈ st.fset) := by tauto
  rcases exec_boundary g s0 (fun u => u ∈ st.explored ∨ u ∈ st.fset) q t hq inv.start ht with
    ⟨j, hjlt, u, w, a, hu, hSu, hw, hSw, hma⟩
  rcases hSu with hue | huf
  · exact absurd (inv.closed u hue a w (matchAction_mem _ _ _ hma)) hSw
  · rcases (inv.fsetEq u).1 huf with ⟨p, hp⟩
    have hple : p.length ≤ j := by
      have := inv.minimal (u, p) hp (q.take j) hu
      rwa [List.length_take, Nat.min_def, if_pos (le_of_lt hjlt)] at this
    have hhead : e0.2.length ≤ p.length := by
      have hmem : (u, p) ∈ st.frontier := hp
      rw [hf] at hmem
      rcases List.mem_cons.1 hmem with h | h
      · rw [← h]
      · exact (List.pairwise_cons.1 (hf ▸ inv.sorted)).1 (u, p) h
    omega

lemma bfsKids_inr_spec (g : Int) (parent : State) (path : List Action) (n m : Nat)
    (exp : List State) :
    ∀ (cs : List (Action × State)) (fr : List (State × List Action)) (fs : List State)
      (tr : List Edge) (fr' : List (State × List Action)) (fs' : List State) (tr' : List Edge),
      bfsKids g parent path n m exp cs fr fs tr = Sum.inr (fr', fs', tr') →
      ∃ news : List (Action × State),
        (∀ e ∈ news, e ∈ cs) ∧
        fr' = fr ++ news.map (fun e => (e.2, path ++ [e.1])) ∧
        fs' = fs ++ news.map Prod.snd ∧
        (∀ e ∈ news, e.2 ∉ exp ∧ e.2 ∉ fs ∧ e.2.is_goal = false) ∧
        (news.map Prod.snd).Nodup ∧
        (∀ a c, (a, c) ∈ cs → c ∈ exp ∨ c ∈ fs') := by
  intro cs
  induction cs with
  | nil =>
    intro fr fs tr fr' fs' tr' h
    unfold bfsKids at h
    simp only [Sum.inr.injEq, Prod.mk.injEq] at h
    obtain ⟨h1, h2, _⟩ := h
    refine ⟨[], by simp, ?_, ?_, by simp, by simp, by simp⟩
    · rw [← h1]; simp
    · rw [← h2]; simp
  | cons e rest ih =>
    intro fr fs tr fr' fs' tr' h
    obtain ⟨a, c⟩ := e
    unfold bfsKids at h
    split_ifs at h with hfresh hgoal
    · rcases ih _ _ _ _ _ _ h with ⟨news', hmem, hfr, hfs, hprop, hnd, hcov⟩
      refine ⟨(a, c) :: news', ?_, ?_, ?_, ?_, ?_, ?_⟩
      · intro e he
        rcases List.mem_cons.1 he with h' | h'
        · rw [h']; exact List.mem_cons_self _ _
        · exact List.mem_cons.2 (Or.inr (hmem e h'))
      · rw [hfr]
        simp [List.append_assoc]
      · rw [hfs]
        simp [List.append_assoc]
      · intro e he
        rcases List.mem_cons.1 he with h' | h'
        · rw [h']
          exact ⟨hfresh.1, hfresh.2, by simpa using hgoal⟩
        · have hp := hprop e h'
          exact ⟨hp.1, fun hcon => hp.2.1 (List.mem_append.2 (Or.inl hcon)), hp.2.2⟩
      · refine List.nodup_cons.2 ⟨?_, hnd⟩
        intro hcon
        rcases List.mem_map.1 hcon with ⟨e', he', heq⟩
        have := (hprop e' he').2.1
        exact this (List.mem_append.2 (Or.inr (by rw [heq]; exact List.mem_singleton.2 rfl)))
      · intro a' c' hc'
        rcases List.mem_cons.1 hc' with h' | h'
        · right
          rw [hfs]
          have hcc : c' = c := (Prod.mk.injEq .. ▸ h').2
          rw [hcc]
          exact List.mem_append.2 (Or.inl (List.mem_append.2 (Or.inr (List.mem_singleton.2 rfl))))
        · rcases hcov a' c' h' with h'' | h''
          · exact Or.inl h''
          · right
            rw [hfs]
            rw [hfs] at h''
            exact h''
    · rcases ih _ _ _ _ _ _ h with ⟨news', hmem, hfr, hfs, hprop, hnd, hcov⟩
      refine ⟨news', ?_, hfr, hfs, hprop, hnd, ?_⟩
      · intro e he
        exact List.mem_cons.2 (Or.inr (hmem e he))
      · intro a' c' hc'
        rcases List.mem_cons.1 hc' with h' | h'
        · have hcc : c' = c := (Prod.mk.injEq .. ▸ h').2
          rw [hcc]
          rcases not_and_or.1 hfresh with h'' | h''
          · exact Or.inl (not_not.1 h'')
          · right
            rw [hfs]
            exact List.mem_append.2 (Or.inl (not_not.1 h''))
        · exact hcov a' c' h'

lemma bfsKids_inl_spec (g : Int) (parent : State) (path : List Action) (n m : Nat)
    (exp : List State) :
    ∀ (cs : List (Action × State)) (fr : List (State × List Action)) (fs : List State)
      (tr : List Edge) (r : SearchResult) (o : Outcome),
      bfsKids g parent path n m exp cs fr fs tr = Sum.inl (r, o) →
      ∃ a c, (a, c) ∈ cs ∧ c ∉ exp ∧ c ∉ fs ∧ c.is_goal = true ∧
        r.path = path ++ [a] ∧ r.success = true := by
  intro cs
  induction cs with
  | nil =>
    intro fr fs tr r o h
    exact absurd h (by simp [bfsKids])
  | cons e rest ih =>
    intro fr fs tr r o h
    obtain ⟨a, c⟩ := e
    unfold bfsKids at h
    split_ifs at h with hfresh hgoal
    · simp only [Sum.inl.injEq, Prod.mk.injEq] at h
      refine ⟨a, c, List.mem_cons_self _ _, hfresh.1, hfresh.2, hgoal, ?_, ?_⟩
      · rw [← h.1]
      · rw [← h.1]
    · rcases ih _ _ _ _ _ h with ⟨a', c', hmem, hexp, hfs, hg, hp, hs⟩
      exact ⟨a', c', List.mem_cons.2 (Or.inr hmem), hexp,
        fun hcon => hfs (List.mem_append.2 (Or.inl hcon)), hg, hp, hs⟩
    · rcases ih _ _ _ _ _ h with ⟨a', c', hmem, hexp, hfs, hg, hp, hs⟩
      exact ⟨a', c', List.mem_cons.2 (Or.inr hmem), hexp, hfs, hg, hp, hs⟩

lemma bfsStep_pres (g : Int) (tmo : Nat → Bool) (s0 : State) (st st' : PlainSt)
    (inv : BfsInv g s0 st) (h : bfsStep g tmo st = Sum.inr st') :
    BfsInv g s0 st' := by
  rcases hf : st.frontier with _ | ⟨⟨s, p⟩, rest⟩
  · rw [bfsStep_nil g tmo st hf] at h
    exact absurd h (by simp)
  · rw [bfsStep_cons g tmo st s p rest hf] at h
    unfold bfsPop at h
    split_ifs at h with h1 h2
    rcases hk : bfsKids g s p (st.nodes + 1) (max st.maxf st.frontier.length)
        (setAdd st.explored s) (get_successors s g) rest (st.fset.erase s) st.tree with rr | k
    · rw [hk, Sum.elim_inl] at h
      exact absurd h (by simp)
    · obtain ⟨fr', fs', tr'⟩ := k
      rw [hk, Sum.elim_inr] at h
      have hst' : st' = PlainSt.mk fr' fs' (setAdd st.explored s) (st.nodes + 1)
          (max st.maxf st.frontier.length) (st.iter + 1) tr' := (Sum.inr.inj h).symm
      rcases bfsKids_inr_spec g s p (st.nodes + 1) (max st.maxf st.frontier.length)
          (setAdd st.explored s) (get_successors s g) rest (st.fset.erase s) st.tree
          fr' fs' tr' hk with ⟨news, hmem, hfr, hfs, hprop, hnd, hcov⟩
      subst hst'
      subst hfr
      subst hfs
      have hheadmem : ((s, p) : State × List Action) ∈ st.frontier := by
        rw [hf]
        exact List.mem_cons_self _ _
      have hvp : execPath g s0 p = some s := inv.valid _ hheadmem
      have hrest_sub : ∀ e ∈ rest, e ∈ st.frontier := by
        rw [hf]
        intro e he
        exact List.mem_cons.2 (Or.inr he)
      have hsorted_cons : ((s, p) :: rest).Pairwise (fun e1 e2 => e1.2.length ≤ e2.2.length) :=
        hf ▸ inv.sorted
      have hhead_le : ∀ e ∈ rest, p.length ≤ e.2.length :=
        fun e he => (List.pairwise_cons.1 hsorted_cons).1 e he
      have htwo : ∀ e ∈ st.frontier, e.2.length ≤ p.length + 1 := inv.twoLevel (s, p) rest hf
      have hs_ne_rest : ∀ e ∈ rest, e.1 ≠ s := by
        have hnd0 : ((s, p) :: rest).map Prod.fst = st.frontier.map Prod.fst := by rw [hf]
        have := inv.fnodup
        rw [← hnd0, List.map_cons, List.nodup_cons] at this
        intro e he hcon
        exact this.1 (List.mem_map.2 ⟨e, he, hcon⟩)
      have hfs1_iff : ∀ t : State, t ∈ st.fset.erase s ↔ t ≠ s ∧ t ∈ st.fset :=
        fun t => List.Nodup.mem_erase_iff inv.fsnodup
      have hnews_fresh : ∀ e ∈ news, e.2 ∉ st.explored ∧ e.2 ≠ s ∧ e.2 ∉ st.fset := by
        intro e he
        obtain ⟨hne, hnf, _⟩ := hprop e he
        rw [mem_setAdd] at hne
        push_neg at hne
        refine ⟨hne.1, hne.2, ?_⟩
        intro hcon
        exact hnf ((hfs1_iff e.2).2 ⟨hne.2, hcon⟩)
      have hnews_succ : ∀ e ∈ news, (e.1, e.2) ∈ get_successors s g := by
        intro e he
        exact hmem e he
      have hnews_valid : ∀ e ∈ news, execPath g s0 (p ++ [e.1]) = some e.2 := by
        intro e he
        rw [execPath_append, hvp]
        show execPath g s [e.1] = some e.2
        have hma := (matchAction_iff s g e.1 e.2).2 (hnews_succ e he)
        have heq : execPath g s [e.1] =
            (match matchAction (get_successors s g) e.1 with
             | some t => execPath g t []
             | none => none) := rfl
        rw [heq, hma]
        rfl
      have hnews_min : ∀ e ∈ news, ∀ q, execPath g s0 q = some e.2 → p.length + 1 ≤ q.length := by
        intro e he q hq
        obtain ⟨hh1, _, hh3⟩ := hnews_fresh e he
        exact bfs_crossing g s0 st inv (s, p) rest hf q e.2 hq hh1 hh3
      have hrest_infs1 : ∀ e ∈ rest, e.1 ∈ st.fset.erase s := by
        intro e he
        refine (hfs1_iff e.1).2 ⟨hs_ne_rest e he, ?_⟩
        exact (inv.fsetEq e.1).2 ⟨e.2, by
          have : ((e.1, e.2) : State × List Action) = e := rfl
          rw [this]
          exact hrest_sub e he⟩
      have hlen_news : ∀ x ∈ news.map (fun e => (e.2, p ++ [e.1])), x.2.length = p.length + 1 := by
        intro x hx
        rcases List.mem_map.1 hx with ⟨e, _, hxe⟩
        rw [← hxe]
        simp
      refine BfsInv.mk ?_ ?_ ?_ ?_ ?_ ?_ ?_ ?_ ?_ ?_ ?_ <;> dsimp only
      · intro e he
        rcases List.mem_append.1 he with h' | h'
        · exact inv.valid e (hrest_sub e h')
        · rcases List.mem_map.1 h' with ⟨e0, he0, hxe⟩
          rw [← hxe]
          exact hnews_valid e0 he0
      · intro e he q hq
        rcases List.mem_append.1 he with h' | h'
        · exact inv.minimal e (hrest_sub e h') q hq
        · rcases List.mem_map.1 h' with ⟨e0, he0, hxe⟩
          have hlen : e.2.length = p.length + 1 := by
            rw [← hxe]
            simp
          rw [hlen]
          refine hnews_min e0 he0 q ?_
          rw [← hxe] at hq
          exact hq
      · refine List.pairwise_append.2 ⟨(List.pairwise_cons.1 hsorted_cons).2, ?_, ?_⟩
        · refine list_pairwise_of_all _ _ ?_
          intro x hx y hy
          rw [hlen_news x hx, hlen_news y hy]
        · intro x hx y hy
          rw [hlen_news y hy]
          exact htwo x (hrest_sub x hx)
      · intro e0' rest' heq e he
        have hb : ∀ x, x ∈ rest ++ news.map (fun e => (e.2, p ++ [e.1])) →
            x.2.length ≤ p.length + 1 ∧ p.length ≤ x.2.length := by
          intro x hx
          rcases List.mem_append.1 hx with h' | h'
          · exact ⟨htwo x (hrest_sub x h'), hhead_le x h'⟩
          · rw [hlen_news x h']
            exact ⟨le_refl _, Nat.le_succ _⟩
        have he0' : e0' ∈ rest ++ news.map (fun e => (e.2, p ++ [e.1])) := by
          rw [heq]
          exact List.mem_cons_self _ _
        have h1 := (hb e he).1
        have h2 := (hb e0' he0').2
        omega
      · intro t
        constructor
        · intro ht
          rcases List.mem_append.1 ht with h' | h'
          · obtain ⟨htne, htf⟩ := (hfs1_iff t).1 h'
            rcases (inv.fsetEq t).1 htf with ⟨p', hp'⟩
            rw [hf] at hp'
            rcases List.mem_cons.1 hp' with h'' | h''
            · exfalso
              exact htne (Prod.mk.injEq .. ▸ h'').1
            · exact ⟨p', List.mem_append.2 (Or.inl h'')⟩
          · rcases List.mem_map.1 h' with ⟨e0, he0, hxe⟩
            refine ⟨p ++ [e0.1], List.mem_append.2 (Or.inr ?_)⟩
            exact List.mem_map.2 ⟨e0, he0, by rw [hxe]⟩
        · rintro ⟨p', hp'⟩
          rcases List.mem_append.1 hp' with h' | h'
          · refine List.mem_append.2 (Or.inl ?_)
            refine (hfs1_iff t).2 ⟨?_, ?_⟩
            · exact hs_ne_rest (t, p') h'
            · exact (inv.fsetEq t).2 ⟨p', hrest_sub _ h'⟩
          · rcases List.mem_map.1 h' with ⟨e0, he0, hxe⟩
            refine List.mem_append.2 (Or.inr ?_)
            exact List.mem_map.2 ⟨e0, he0, (Prod.mk.injEq .. ▸ hxe).1⟩
      · rw [List.map_append, List.map_map]
        have hmm : (Prod.fst ∘ fun e : Action × State => (e.2, p ++ [e.1])) =
            fun e : Action × State => e.2 := rfl
        rw [hmm]
        refine List.Nodup.append ?_ ?_ ?_
        · have hnd0 : ((s, p) :: rest).map Prod.fst = st.frontier.map Prod.fst := by rw [hf]
          have := inv.fnodup
          rw [← hnd0, List.map_cons, List.nodup_cons] at this
          exact this.2
        · have : (news.map (fun e : Action × State => e.2)) = news.map Prod.snd := rfl
          rw [this]
          exact hnd
        · intro x hx hy
          rcases List.mem_map.1 hx with ⟨e, he, hxe⟩
          rcases List.mem_map.1 hy with ⟨e0, he0, hye⟩
          have hxin : x ∈ st.fset.erase s := by
            rw [← hxe]
            exact hrest_infs1 e he
          have := (hprop e0 he0).2.1
          rw [hye] at this
          exact this hxin
      · refine List.Nodup.append (inv.fsnodup.erase s) hnd ?_
        intro x hx hy
        rcases List.mem_map.1 hy with ⟨e0, he0, hye⟩
        have := (hprop e0 he0).2.1
        rw [hye] at this
        exact this hx
      · intro u hu a c hc
        rcases (mem_setAdd _ _ _).1 hu with h' | h'
        · rcases inv.closed u h' a c hc with h'' | h''
          · exact Or.inl ((mem_setAdd _ _ _).2 (Or.inl h''))
          · by_cases hcs : c = s
            · exact Or.inl ((mem_setAdd _ _ _).2 (Or.inr hcs))
            · exact Or.inr (List.mem_append.2 (Or.inl ((hfs1_iff c).2 ⟨hcs, h''⟩)))
        · rw [h'] at hc
          exact hcov a c hc
      · rcases inv.start with h' | h'
        · exact Or.inl ((mem_setAdd _ _ _).2 (Or.inl h'))
        · by_cases hss : s0 = s
          · exact Or.inl ((mem_setAdd _ _ _).2 (Or.inr hss))
          · exact Or.inr (List.mem_append.2 (Or.inl ((hfs1_iff s0).2 ⟨hss, h'⟩)))
      · intro u hu
        rcases (mem_setAdd _ _ _).1 hu with h' | h'
        · exact inv.egoal u h'
        · rw [h']
          exact inv.fgoal (s, p) hheadmem
      · intro e he
        rcases List.mem_append.1 he with h' | h'
        · exact inv.fgoal e (hrest_sub e h')
        · rcases List.mem_map.1 h' with ⟨e0, he0, hxe⟩
          rw [← hxe]
          exact (hprop e0 he0).2.2

lemma bfsStep_good (g : Int) (tmo : Nat → Bool) (s0 : State) (st : PlainSt)
    (inv : BfsInv g s0 st) (r : SearchResult) (o : Outcome)
    (h : bfsStep g tmo st = Sum.inl (r, o)) :
    r.success = true → MinGoalLen g s0 r.path.length := by
  rcases hf : st.frontier with _ | ⟨⟨s, p⟩, rest⟩
  · rw [bfsStep_nil g tmo st hf] at h
    simp only [Sum.inl.injEq, Prod.mk.injEq] at h
    rw [← h.1]
    intro hs
    simp at hs
  · rw [bfsStep_cons g tmo st s p rest hf] at h
    unfold bfsPop at h
    split_ifs at h with h1 h2
    · simp only [Sum.inl.injEq, Prod.mk.injEq] at h
      rw [← h.1]
      intro hs
      simp at hs
    · simp only [Sum.inl.injEq, Prod.mk.injEq] at h
      rw [← h.1]
      intro hs
      simp at hs
    · rcases hk : bfsKids g s p (st.nodes + 1) (max st.maxf st.frontier.length)
          (setAdd st.explored s) (get_successors s g) rest (st.fset.erase s) st.tree with rr | k
      · obtain ⟨r1, o1⟩ := rr
        rw [hk, Sum.elim_inl, Sum.inl.injEq] at h
        cases h
        intro _
        rcases bfsKids_inl_spec g s p (st.nodes + 1) (max st.maxf st.frontier.length)
            (setAdd st.explored s) (get_successors s g) rest (st.fset.erase s) st.tree
            r o hk with ⟨a, c, hmemc, hnexp, hnfs, hgoal, hpath, _⟩
        have hheadmem : ((s, p) : State × List Action) ∈ st.frontier := by
          rw [hf]
          exact List.mem_cons_self _ _
        have hvp : execPath g s0 p = some s := inv.valid _ hheadmem
        have hval : execPath g s0 (p ++ [a]) = some c := by
          rw [execPath_append, hvp]
          show execPath g s [a] = some c
          have hma := (matchAction_iff s g a c).2 hmemc
          have heq : execPath g s [a] =
              (match matchAction (get_successors s g) a with
               | some t => execPath g t []
               | none => none) := rfl
          rw [heq, hma]
          rfl
        rw [hpath]
        constructor
        · exact ⟨p ++ [a], c, rfl, hval, hgoal⟩
        · intro mlen hm
          rcases hm with ⟨q, t, hlen, hq, htg⟩
          have hte : t ∉ st.explored := by
            intro hcon
            rw [inv.egoal t hcon] at htg
            exact Bool.false_ne_true htg
          have htf : t ∉ st.fset := by
            intro hcon
            rcases (inv.fsetEq t).1 hcon with ⟨p', hp'⟩
            have := inv.fgoal (t, p') hp'
            rw [this] at htg
            exact Bool.false_ne_true htg
          have hcr := bfs_crossing g s0 st inv (s, p) rest hf q t hq hte htf
          rw [← hlen]
          simpa using hcr
      · rw [hk, Sum.elim_inr] at h
        exact absurd h (by simp)

lemma bfs_optimal (g : Int) (tmo : Nat → Bool) (s0 : State) (fuel : Nat)
    (h : (bfs g tmo s0 fuel).1.success = true) :
    MinGoalLen g s0 (bfs g tmo s0 fuel).1.path.length := by
  by_cases hg : s0.is_goal = true
  · have hbfs : bfs g tmo s0 fuel =
        (SearchResult.mk [] 0 0 1 true "BFS" [] [], Outcome.success) := by
      unfold bfs
      rw [if_pos hg]
    rw [hbfs]
    exact ⟨⟨[], s0, rfl, rfl, hg⟩, fun m _ => Nat.zero_le m⟩
  · have hbfs : bfs g tmo s0 fuel = iterateD (bfsStep g tmo)
        (SearchResult.mk [] 0 0 0 false "BFS" [] [], Outcome.fuelOut) fuel
        (PlainSt.mk [(s0, [])] [s0] [] 0 1 0 []) := by
      unfold bfs
      rw [if_neg hg]
    rw [hbfs] at h ⊢
    have hinv : BfsInv g s0 (PlainSt.mk [(s0, [])] [s0] [] 0 1 0 []) := by
      refine BfsInv.mk ?_ ?_ ?_ ?_ ?_ ?_ ?_ ?_ ?_ ?_ ?_
      · intro e he
        rcases List.mem_singleton.1 he with h'
        rw [h']
        rfl
      · intro e he q hq
        rcases List.mem_singleton.1 he with h'
        rw [h']
        exact Nat.zero_le _
      · simp
      · intro e0 rest' heq e he
        have h1 : e0 = (s0, ([] : List Action)) := by
          have := List.mem_cons_self e0 rest'
          rw [← heq] at this
          exact (List.mem_singleton.1 this)
        have h2 : e = (s0, ([] : List Action)) := List.mem_singleton.1 he
        rw [h1, h2]
        simp
      · intro t
        simp
      · simp
      · simp
      · intro u hu
        exact absurd hu (List.not_mem_nil u)
      · exact Or.inr (List.mem_singleton.2 rfl)
      · intro u hu
        exact absurd hu (List.not_mem_nil u)
      · intro e he
        rcases List.mem_singleton.1 he with h'
        rw [h']
        exact Bool.not_eq_true _ ▸ (by simpa using hg)
    exact iterateD_inv (bfsStep g tmo)
      (SearchResult.mk [] 0 0 0 false "BFS" [] [], Outcome.fuelOut)
      (BfsInv g s0)
      (fun ro => ro.1.success = true → MinGoalLen g s0 ro.1.path.length)
      (by intro hcon; simp at hcon)
      (fun stx rr hi hstep => bfsStep_good g tmo s0 stx hi rr.1 rr.2 (by rw [hstep]))
      (fun stx stx' hi hstep => bfsStep_pres g tmo s0 stx stx' hi hstep)
      fuel (PlainSt.mk [(s0, [])] [s0] [] 0 1 0 []) hinv h

def ucost (e : UcsEntry) : Nat := e.1

def ustate (e : UcsEntry) : State := e.2.2.1

def upath (e : UcsEntry) : List Action := e.2.2.2

lemma mem_insertSorted {A : Type} (le : A → A → Bool) (x y : A) :
    ∀ l : List A, y ∈ insertSorted le x l ↔ y = x ∨ y ∈ l := by
  intro l
  induction l with
  | nil => simp [insertSorted]
  | cons z zs ih =>
    unfold insertSorted
    split
    · constructor
      · intro h
        rcases List.mem_cons.1 h with h' | h'
        · exact Or.inl h'
        · exact Or.inr h'
      · rintro (h' | h')
        · exact List.mem_cons.2 (Or.inl h')
        · exact List.mem_cons.2 (Or.inr h')
    · constructor
      · intro h
        rcases List.mem_cons.1 h with h' | h'
        · exact Or.inr (List.mem_cons.2 (Or.inl h'))
        · rcases ih.1 h' with h'' | h''
          · exact Or.inl h''
          · exact Or.inr (List.mem_cons.2 (Or.inr h''))
      · rintro (h' | h')
        · exact List.mem_cons.2 (Or.inr (ih.2 (Or.inl h')))
        · rcases List.mem_cons.1 h' with h'' | h''
          · exact List.mem_cons.2 (Or.inl h'')
          · exact List.mem_cons.2 (Or.inr (ih.2 (Or.inr h'')))

lemma insertSorted_pairwise {A : Type} (le : A → A → Bool)
    (htot : ∀ a b, le a b = true ∨ le b a = true)
    (htr : ∀ a b c, le a b = true → le b c = true → le a c = true) (x : A) :
    ∀ l : List A, l.Pairwise (fun a b => le a b = true) →
      (insertSorted le x l).Pairwise (fun a b => le a b = true) := by
  intro l
  induction l with
  | nil =>
    intro _
    simp [insertSorted]
  | cons y ys ih =>
    intro hp
    unfold insertSorted
    split
    · next hxy =>
      refine List.Pairwise.cons ?_ hp
      intro z hz
      rcases List.mem_cons.1 hz with h' | h'
      · rw [h']
        exact hxy
      · exact htr x y z hxy ((List.pairwise_cons.1 hp).1 z h')
    · next hxy =>
      refine List.Pairwise.cons ?_ (ih (List.pairwise_cons.1 hp).2)
      intro z hz
      rcases (mem_insertSorted le x z ys).1 hz with h' | h'
      · rw [h']
        rcases htot x y with h'' | h''
        · exact absurd h'' hxy
        · exact h''
      · exact (List.pairwise_cons.1 hp).1 z h'

lemma ucsLe_total (e1 e2 : UcsEntry) : ucsLe e1 e2 = true ∨ ucsLe e2 e1 = true := by
  unfold ucsLe
  simp only [decide_eq_true_eq]
  omega

lemma ucsLe_trans (e1 e2 e3 : UcsEntry) (h1 : ucsLe e1 e2 = true) (h2 : ucsLe e2 e3 = true) :
    ucsLe e1 e3 = true := by
  unfold ucsLe at *
  simp only [decide_eq_true_eq] at *
  omega

lemma ucsLe_cost (e1 e2 : UcsEntry) (h : ucsLe e1 e2 = true) : ucost e1 ≤ ucost e2 := by
  unfold ucsLe at h
  simp only [decide_eq_true_eq] at h
  unfold ucost
  omega

lemma lookupD_cons (t0 : State) (c0 : Nat) (rest : List (State × Nat)) (s : State) :
    lookupD ((t0, c0) :: rest) s = if t0 = s then some c0 else lookupD rest s := rfl

lemma lookupD_dictInsert (l : List (State × Nat)) (s : State) (c : Nat) (t : State) :
    lookupD (dictInsert l s c) t = if t = s then some c else lookupD l t := by
  induction l with
  | nil =>
    show lookupD [(s, c)] t = _
    rw [lookupD_cons]
    by_cases h : t = s
    · rw [if_pos (by rw [h]), if_pos h]
    · rw [if_neg (fun hc => h hc.symm), if_neg h]
  | cons e rest ih =>
    obtain ⟨t0, c0⟩ := e
    show lookupD (if t0 = s then (t0, c) :: rest else (t0, c0) :: dictInsert rest s c) t = _
    by_cases h0 : t0 = s
    · rw [if_pos h0, lookupD_cons, lookupD_cons]
      by_cases h : t = s
      · rw [if_pos (by rw [h0, h]), if_pos h]
      · rw [if_neg (fun hc => h (by rw [← hc, h0])), if_neg h,
          if_neg (fun hc : t0 = t => h (by rw [← hc, h0]))]
    · rw [if_neg h0, lookupD_cons, lookupD_cons, ih]
      by_cases h : t = s
      · rw [if_pos h, if_neg (show t0 ≠ t from fun hc => h0 (hc.trans h)), if_pos h]
      · rw [if_neg h, if_neg h]

lemma dictAtMost_true (l : List (State × Nat)) (s : State) (c : Nat) :
    dictAtMost l s c = true ↔ ∃ v, lookupD l s = some v ∧ v ≤ c := by
  unfold dictAtMost
  rcases h : lookupD l s with _ | v
  · simp
  · simp only [decide_eq_true_eq]
    constructor
    · intro h'
      exact ⟨v, rfl, h'⟩
    · rintro ⟨v', hv', hle⟩
      have := Option.some.inj hv'
      omega

/-- The loop invariant of the embedded `ucs`: heap entries carry valid paths
whose length equals their cost and the heap is sorted by (cost, counter);
explored costs are exact shortest distances; every successor of an explored
state is discovered with relaxed cost; explored costs never exceed heap
costs; and no explored state is a goal. -/
structure UcsInv (g : Int) (s0 : State) (st : UcsSt) : Prop where
  valid : ∀ e ∈ st.heap, execPath g s0 (upath e) = some (ustate e) ∧ (upath e).length = ucost e
  sorted : st.heap.Pairwise (fun e1 e2 => ucsLe e1 e2 = true)
  explEx : ∀ t c, lookupD st.expl t = some c → ∃ q : List Action, q.length = c ∧ execPath g s0 q = some t
  explMin : ∀ t c, lookupD st.expl t = some c → ∀ q, execPath g s0 q = some t → c ≤ q.length
  closed : ∀ u cu, lookupD st.expl u = some cu → ∀ a w, (a, w) ∈ get_successors u g →
      (∃ cw, lookupD st.expl w = some cw ∧ cw ≤ cu + 1) ∨
      (∃ e ∈ st.heap, ustate e = w ∧ ucost e ≤ cu + 1)
  start : (∃ c0, lookupD st.expl s0 = some c0) ∨ (∃ e ∈ st.heap, ustate e = s0 ∧ ucost e = 0)
  lowb : ∀ t ct, lookupD st.expl t = some ct → ∀ e ∈ st.heap, ct ≤ ucost e
  nogoal : ∀ t ct, lookupD st.expl t = some ct → t.is_goal = false

lemma ucs_crossing (g : Int) (s0 : State) (st : UcsSt) (inv : UcsInv g s0 st)
    (e0 : UcsEntry) (rest : List UcsEntry) (hf : st.heap = e0 :: rest)
    (q : List Action) (t : State) (hq : execPath g s0 q = some t)
    (ht : lookupD st.expl t = none) : ucost e0 ≤ q.length := by
  have hmin : ∀ e ∈ st.heap, ucost e0 ≤ ucost e := by
    intro e he
    rw [hf] at he
    rcases List.mem_cons.1 he with h' | h'
    · rw [h']
    · exact ucsLe_cost e0 e ((List.pairwise_cons.1 (hf ▸ inv.sorted)).1 e h')
  by_cases h0 : ∃ cu, lookupD st.expl s0 = some cu
  · have htS : ¬ ∃ cu, lookupD st.expl t = some cu := by
      rintro ⟨cu, hcu⟩
      rw [ht] at hcu
      exact absurd hcu (by simp)
    rcases exec_boundary g s0 (fun u => ∃ cu, lookupD st.expl u = some cu) q t hq h0 htS with
      ⟨j, hjlt, u, w, a, hu, hSu, hw, hSw, hma⟩
    rcases hSu with ⟨cu, hcu⟩
    rcases inv.closed u cu hcu a w (matchAction_mem _ _ _ hma) with ⟨cw, hcw, _⟩ | ⟨e, he, hew, hec⟩
    · exact absurd ⟨cw, hcw⟩ hSw
    · have h1 : ucost e0 ≤ ucost e := hmin e he
      have h2 : cu ≤ j := by
        have := inv.explMin u cu hcu (q.take j) hu
        rwa [List.length_take, Nat.min_def, if_pos (le_of_lt hjlt)] at this
      omega
  · rcases inv.start with ⟨c0, hc0⟩ | ⟨e, he, _, hec⟩
    · exact absurd ⟨c0, hc0⟩ h0
    · have := hmin e he
      rw [hec] at this
      omega

lemma pushCond_false (expl1 : List (State × Nat)) (c : State) (nc : Nat) :
    pushCond expl1 c nc = false ↔ ∃ v, lookupD expl1 c = some v ∧ v ≤ nc := by
  unfold pushCond
  rcases h : lookupD expl1 c with _ | v
  · simp
  · simp only [decide_eq_false_iff_not, not_lt]
    constructor
    · intro h'
      exact ⟨v, rfl, h'⟩
    · rintro ⟨v', hv', hle⟩
      have := Option.some.inj hv'
      omega

lemma ucsKids_cons_eq (g : Int) (parent : State) (path : List Action) (cost : Nat)
    (expl1 : List (State × Nat)) (a : Action) (c : State) (rest : List (Action × State))
    (hp : List UcsEntry) (ctr : Nat) (tr : List Edge) :
    ucsKids g parent path cost expl1 ((a, c) :: rest) hp ctr tr =
      (if pushCond expl1 c (cost + 1) then
        ucsKids g parent path cost expl1 rest
          (insertSorted ucsLe (cost + 1, ctr + 1, c, path ++ [a]) hp) (ctr + 1)
          (treeAdd tr (parent, a, c, ((cost + 1 : Nat) : Int)))
      else
        ucsKids g parent path cost expl1 rest hp ctr
          (treeAdd tr (parent, a, c, ((cost + 1 : Nat) : Int)))) := rfl

lemma ucsKids_sub (g : Int) (parent : State) (path : List Action) (cost : Nat)
    (expl1 : List (State × Nat)) :
    ∀ (cs : List (Action × State)) (hp : List UcsEntry) (ctr : Nat) (tr : List Edge),
      ∀ e ∈ hp, e ∈ (ucsKids g parent path cost expl1 cs hp ctr tr).1 := by
  intro cs
  induction cs with
  | nil =>
    intro hp ctr tr e he
    exact he
  | cons e0 rest ih =>
    intro hp ctr tr e he
    obtain ⟨a, c⟩ := e0
    rw [ucsKids_cons_eq]
    by_cases hc : pushCond expl1 c (cost + 1) = true
    · rw [if_pos hc]
      exact ih _ _ _ e ((mem_insertSorted _ _ _ _).2 (Or.inr he))
    · rw [if_neg hc]
      exact ih _ _ _ e he

lemma ucsKids_origin (g : Int) (parent : State) (path : List Action) (cost : Nat)
    (expl1 : List (State × Nat)) :
    ∀ (cs : List (Action × State)) (hp : List UcsEntry) (ctr : Nat) (tr : List Edge),
      ∀ e ∈ (ucsKids g parent path cost expl1 cs hp ctr tr).1,
        e ∈ hp ∨ (ucost e = cost + 1 ∧ ∃ a, (a, ustate e) ∈ cs ∧ upath e = path ++ [a]) := by
  intro cs
  induction cs with
  | nil =>
    intro hp ctr tr e he
    exact Or.inl he
  | cons e0 rest ih =>
    intro hp ctr tr e he
    obtain ⟨a, c⟩ := e0
    rw [ucsKids_cons_eq] at he
    by_cases hc : pushCond expl1 c (cost + 1) = true
    · rw [if_pos hc] at he
      rcases ih _ _ _ e he with h' | ⟨h1, a', h2, h3⟩
      · rcases (mem_insertSorted _ _ _ _).1 h' with h'' | h''
        · right
          rw [h'']
          exact ⟨rfl, a, List.mem_cons_self _ _, rfl⟩
        · exact Or.inl h''
      · exact Or.inr ⟨h1, a', List.mem_cons.2 (Or.inr h2), h3⟩
    · rw [if_neg hc] at he
      rcases ih _ _ _ e he with h' | ⟨h1, a', h2, h3⟩
      · exact Or.inl h'
      · exact Or.inr ⟨h1, a', List.mem_cons.2 (Or.inr h2), h3⟩

lemma ucsKids_sorted (g : Int) (parent : State) (path : List Action) (cost : Nat)
    (expl1 : List (State × Nat)) :
    ∀ (cs : List (Action × State)) (hp : List UcsEntry) (ctr : Nat) (tr : List Edge),
      hp.Pairwise (fun e1 e2 => ucsLe e1 e2 = true) →
      (ucsKids g parent path cost expl1 cs hp ctr tr).1.Pairwise
        (fun e1 e2 => ucsLe e1 e2 = true) := by
  intro cs
  induction cs with
  | nil =>
    intro hp ctr tr hs
    exact hs
  | cons e0 rest ih =>
    intro hp ctr tr hs
    obtain ⟨a, c⟩ := e0
    rw [ucsKids_cons_eq]
    by_cases hc : pushCond expl1 c (cost + 1) = true
    · rw [if_pos hc]
      exact ih _ _ _ (insertSorted_pairwise ucsLe ucsLe_total ucsLe_trans _ hp hs)
    · rw [if_neg hc]
      exact ih _ _ _ hs

lemma ucsKids_cov (g : Int) (parent : State) (path : List Action) (cost : Nat)
    (expl1 : List (State × Nat)) :
    ∀ (cs : List (Action × State)) (hp : List UcsEntry) (ctr : Nat) (tr : List Edge),
      ∀ (a : Action) (c : State), (a, c) ∈ cs →
        (∃ v, lookupD expl1 c = some v ∧ v ≤ cost + 1) ∨
        (∃ e ∈ (ucsKids g parent path cost expl1 cs hp ctr tr).1,
          ustate e = c ∧ ucost e ≤ cost + 1) := by
  intro cs
  induction cs with
  | nil =>
    intro hp ctr tr a c hmem
    exact absurd hmem (List.not_mem_nil _)
  | cons e0 rest ih =>
    intro hp ctr tr a c hmem
    obtain ⟨a0, c0⟩ := e0
    rw [ucsKids_cons_eq]
    rcases List.mem_cons.1 hmem with h' | h'
    · have hcc : c = c0 := (Prod.mk.injEq .. ▸ h').2
      by_cases hc : pushCond expl1 c0 (cost + 1) = true
      · rw [if_pos hc]
        right
        refine ⟨(cost + 1, ctr + 1, c0, path ++ [a0]), ?_, ?_, ?_⟩
        · exact ucsKids_sub g parent path cost expl1 rest _ _ _ _
            ((mem_insertSorted _ _ _ _).2 (Or.inl rfl))
        · rw [hcc]
          rfl
        · exact le_refl _
      · rw [if_neg hc]
        left
        rcases (pushCond_false expl1 c0 (cost + 1)).1 (Bool.not_eq_true _ ▸ hc) with ⟨v, hv, hle⟩
        rw [hcc]
        exact ⟨v, hv, hle⟩
    · by_cases hc : pushCond expl1 c0 (cost + 1) = true
      · rw [if_pos hc]
        exact ih _ _ _ a c h'
      · rw [if_neg hc]
        exact ih _ _ _ a c h'

lemma ucsStep_pres (g : Int) (tmo : Nat → Bool) (s0 : State) (st st' : UcsSt)
    (inv : UcsInv g s0 st) (h : ucsStep g tmo st = Sum.inr st') : UcsInv g s0 st' := by
  rcases hf : st.heap with _ | ⟨⟨cost, ctr, s, p⟩, rest⟩
  · rw [ucsStep_nil g tmo st hf] at h
    exact absurd h (by simp)
  · rw [ucsStep_cons g tmo st cost ctr s p rest hf] at h
    unfold ucsPop at h
    split_ifs at h with h1 h2 h3 h4
    · have hst' : st' = UcsSt.mk rest st.expl st.counter st.nodes
          (max st.maxf st.heap.length) (st.iter + 1) st.tree := (Sum.inr.inj h).symm
      subst hst'
      rcases (dictAtMost_true st.expl s cost).1 h3 with ⟨cs, hcs, hcsle⟩
      have hsub : ∀ e ∈ rest, e ∈ st.heap := by
        rw [hf]
        exact fun e he => List.mem_cons.2 (Or.inr he)
      refine UcsInv.mk ?_ ?_ ?_ ?_ ?_ ?_ ?_ ?_ <;> dsimp only
      · exact fun e he => inv.valid e (hsub e he)
      · exact (List.pairwise_cons.1 (hf ▸ inv.sorted)).2
      · exact inv.explEx
      · exact inv.explMin
      · intro u cu hcu a w hw
        rcases inv.closed u cu hcu a w hw with h' | ⟨e, he, hew, hec⟩
        · exact Or.inl h'
        · rw [hf] at he
          rcases List.mem_cons.1 he with h'' | h''
          · left
            have hws : w = s := by
              rw [h''] at hew
              exact hew.symm
            have hcle : cost ≤ cu + 1 := by
              rw [h''] at hec
              exact hec
            refine ⟨cs, by rw [hws]; exact hcs, by omega⟩
          · exact Or.inr ⟨e, h'', hew, hec⟩
      · rcases inv.start with h' | ⟨e, he, hes, hec⟩
        · exact Or.inl h'
        · rw [hf] at he
          rcases List.mem_cons.1 he with h'' | h''
          · left
            have hss : s0 = s := by
              rw [h''] at hes
              exact hes.symm
            exact ⟨cs, by rw [hss]; exact hcs⟩
          · exact Or.inr ⟨e, h'', hes, hec⟩
      · exact fun t ct hct e he => inv.lowb t ct hct e (hsub e he)
      · exact inv.nogoal
    · have hst' : st' = UcsSt.mk
          (ucsKids g s p cost (dictInsert st.expl s cost) (get_successors s g) rest
            st.counter st.tree).1
          (dictInsert st.expl s cost)
          (ucsKids g s p cost (dictInsert st.expl s cost) (get_successors s g) rest
            st.counter st.tree).2.1
          (st.nodes + 1) (max st.maxf st.heap.length) (st.iter + 1)
          (ucsKids g s p cost (dictInsert st.expl s cost) (get_successors s g) rest
            st.counter st.tree).2.2 := (Sum.inr.inj h).symm
      subst hst'
      have hheadmem : (⟨cost, ctr, s, p⟩ : UcsEntry) ∈ st.heap := by
        rw [hf]
        exact List.mem_cons_self _ _
      have hv := inv.valid _ hheadmem
      have hvp : execPath g s0 p = some s := hv.1
      have hlp : p.length = cost := hv.2
      have hsub : ∀ e ∈ rest, e ∈ st.heap := by
        rw [hf]
        exact fun e he => List.mem_cons.2 (Or.inr he)
      have hsmin : ∀ q, execPath g s0 q = some s → cost ≤ q.length := by
        intro q hq
        rcases hl : lookupD st.expl s with _ | v
        · exact ucs_crossing g s0 st inv ⟨cost, ctr, s, p⟩ rest hf q s hq hl
        · exfalso
          have hvle := inv.explMin s v hl p hvp
          rw [hlp] at hvle
          exact h3 ((dictAtMost_true _ _ _).2 ⟨v, hl, hvle⟩)
      have hexpl' : ∀ t, lookupD (dictInsert st.expl s cost) t =
          if t = s then some cost else lookupD st.expl t :=
        fun t => lookupD_dictInsert _ _ _ _
      have hrest_sorted := (List.pairwise_cons.1 (hf ▸ inv.sorted)).2
      have hhead_le : ∀ e ∈ rest, cost ≤ ucost e :=
        fun e he =>
          ucsLe_cost ⟨cost, ctr, s, p⟩ e ((List.pairwise_cons.1 (hf ▸ inv.sorted)).1 e he)
      have horigin := ucsKids_origin g s p cost (dictInsert st.expl s cost)
        (get_successors s g) rest st.counter st.tree
      refine UcsInv.mk ?_ ?_ ?_ ?_ ?_ ?_ ?_ ?_ <;> dsimp only
      · intro e he
        rcases horigin e he with h' | ⟨hc1, a, hc2, hc3⟩
        · exact inv.valid e (hsub e h')
        · constructor
          · rw [hc3, execPath_append, hvp]
            show execPath g s [a] = some (ustate e)
            have hma := (matchAction_iff s g a (ustate e)).2 hc2
            have heq : execPath g s [a] =
                (match matchAction (get_successors s g) a with
                 | some t => execPath g t []
                 | none => none) := rfl
            rw [heq, hma]
            rfl
          · rw [hc3, hc1]
            simp [hlp]
      · exact ucsKids_sorted g s p cost (dictInsert st.expl s cost)
          (get_successors s g) rest st.counter st.tree hrest_sorted
      · intro t c hct
        rw [hexpl' t] at hct
        by_cases hts : t = s
        · rw [if_pos hts] at hct
          have hcc := Option.some.inj hct
          refine ⟨p, by omega, by rw [hts]; exact hvp⟩
        · rw [if_neg hts] at hct
          exact inv.explEx t c hct
      · intro t c hct q hq
        rw [hexpl' t] at hct
        by_cases hts : t = s
        · rw [if_pos hts] at hct
          have hcc := Option.some.inj hct
          rw [← hcc]
          exact hsmin q (by rw [← hts]; exact hq)
        · rw [if_neg hts] at hct
          exact inv.explMin t c hct q hq
      · intro u cu hcu a w hw
        rw [hexpl' u] at hcu
        by_cases hus : u = s
        · rw [if_pos hus] at hcu
          have hcc := Option.some.inj hcu
          rcases ucsKids_cov g s p cost (dictInsert st.expl s cost) (get_successors s g)
              rest st.counter st.tree a w (by rw [← hus]; exact hw) with
            ⟨v, hv', hvle⟩ | ⟨e, he, hew, hec⟩
          · exact Or.inl ⟨v, hv', by omega⟩
          · exact Or.inr ⟨e, he, hew, by omega⟩
        · rw [if_neg hus] at hcu
          rcases inv.closed u cu hcu a w hw with ⟨cw, hcw, hcwle⟩ | ⟨e, he, hew, hec⟩
          · by_cases hws : w = s
            · left
              refine ⟨cost, by rw [hexpl' w, if_pos hws], ?_⟩
              have hcws : lookupD st.expl s = some cw := by
                rw [← hws]
                exact hcw
              have hgt : ¬ (cw ≤ cost) :=
                fun hcon => h3 ((dictAtMost_true _ _ _).2 ⟨cw, hcws, hcon⟩)
              omega
            · exact Or.inl ⟨cw, by rw [hexpl' w, if_neg hws]; exact hcw, hcwle⟩
          · rw [hf] at he
            rcases List.mem_cons.1 he with h'' | h''
            · left
              have hws : w = s := by
                rw [h''] at hew
                exact hew.symm
              have hcle : cost ≤ cu + 1 := by
                rw [h''] at hec
                exact hec
              exact ⟨cost, by rw [hexpl' w, if_pos hws], hcle⟩
            · right
              exact ⟨e, ucsKids_sub g s p cost (dictInsert st.expl s cost)
                (get_successors s g) rest st.counter st.tree e h'', hew, hec⟩
      · rcases inv.start with ⟨c0, hc0⟩ | ⟨e, he, hes, hec⟩
        · left
          by_cases hss : s0 = s
          · exact ⟨cost, by rw [hexpl' s0, if_pos hss]⟩
          · exact ⟨c0, by rw [hexpl' s0, if_neg hss]; exact hc0⟩
        · rw [hf] at he
          rcases List.mem_cons.1 he with h'' | h''
          · left
            have hss : s0 = s := by
              rw [h''] at hes
              exact hes.symm
            exact ⟨cost, by rw [hexpl' s0, if_pos hss]⟩
          · right
            exact ⟨e, ucsKids_sub g s p cost (dictInsert st.expl s cost)
              (get_successors s g) rest st.counter st.tree e h'', hes, hec⟩
      · intro t ct hct e he
        rw [hexpl' t] at hct
        have hce : cost ≤ ucost e ∨ ucost e = cost + 1 := by
          rcases horigin e he with h' | ⟨hc1, _⟩
          · exact Or.inl (hhead_le e h')
          · exact Or.inr hc1
        by_cases hts : t = s
        · rw [if_pos hts] at hct
          have := Option.some.inj hct
          rcases hce with h' | h' <;> omega
        · rw [if_neg hts] at hct
          have h0 : ct ≤ cost := inv.lowb t ct hct _ hheadmem
          rcases hce with h' | h' <;> omega
      · intro t ct hct
        rw [hexpl' t] at hct
        by_cases hts : t = s
        · rw [hts]
          exact (Bool.not_eq_true _) ▸ h4
        · rw [if_neg hts] at hct
          exact inv.nogoal t ct hct

lemma ucsStep_good (g : Int) (tmo : Nat → Bool) (s0 : State) (st : UcsSt)
    (inv : UcsInv g s0 st) (r : SearchResult) (o : Outcome)
    (h : ucsStep g tmo st = Sum.inl (r, o)) :
    r.success = true → MinGoalLen g s0 r.path.length := by
  rcases hf : st.heap with _ | ⟨⟨cost, ctr, s, p⟩, rest⟩
  · rw [ucsStep_nil g tmo st hf] at h
    simp only [Sum.inl.injEq, Prod.mk.injEq] at h
    rw [← h.1]
    intro hs
    simp at hs
  · rw [ucsStep_cons g tmo st cost ctr s p rest hf] at h
    unfold ucsPop at h
    split_ifs at h with h1 h2 h3 h4
    · simp only [Sum.inl.injEq, Prod.mk.injEq] at h
      rw [← h.1]
      intro hs
      simp at hs
    · simp only [Sum.inl.injEq, Prod.mk.injEq] at h
      rw [← h.1]
      intro hs
      simp at hs
    · simp only [Sum.inl.injEq, Prod.mk.injEq] at h
      rw [← h.1]
      intro _
      show MinGoalLen g s0 p.length
      have hheadmem : (⟨cost, ctr, s, p⟩ : UcsEntry) ∈ st.heap := by
        rw [hf]
        exact List.mem_cons_self _ _
      have hv := inv.valid _ hheadmem
      have hvp : execPath g s0 p = some s := hv.1
      have hlp : p.length = cost := hv.2
      constructor
      · exact ⟨p, s, rfl, hvp, h4⟩
      · intro mlen hm
        rcases hm with ⟨q, t, hlen, hq, htg⟩
        have htl : lookupD st.expl t = none := by
          rcases hl : lookupD st.expl t with _ | v
          · rfl
          · exfalso
            have := inv.nogoal t v hl
            rw [this] at htg
            exact Bool.false_ne_true htg
        have hcr := ucs_crossing g s0 st inv ⟨cost, ctr, s, p⟩ rest hf q t hq htl
        rw [← hlen, hlp]
        exact hcr

lemma ucs_optimal (g : Int) (tmo : Nat → Bool) (s0 : State) (fuel : Nat)
    (h : (ucs g tmo s0 fuel).1.success = true) :
    MinGoalLen g s0 (ucs g tmo s0 fuel).1.path.length := by
  have hucs : ucs g tmo s0 fuel = iterateD (ucsStep g tmo)
      (SearchResult.mk [] 0 0 0 false "UCS" [] [], Outcome.fuelOut) fuel
      (UcsSt.mk [(0, 0, s0, [])] [] 0 0 1 0 []) := rfl
  rw [hucs] at h ⊢
  have hinv : UcsInv g s0 (UcsSt.mk [(0, 0, s0, [])] [] 0 0 1 0 []) := by
    refine UcsInv.mk ?_ ?_ ?_ ?_ ?_ ?_ ?_ ?_
    · intro e he
      rcases List.mem_singleton.1 he with h'
      rw [h']
      exact ⟨rfl, rfl⟩
    · simp
    · intro t c hct
      exact absurd hct (by simp [lookupD])
    · intro t c hct
      exact absurd hct (by simp [lookupD])
    · intro u cu hcu
      exact absurd hcu (by simp [lookupD])
    · exact Or.inr ⟨(0, 0, s0, []), List.mem_singleton.2 rfl, rfl, rfl⟩
    · intro t ct hct
      exact absurd hct (by simp [lookupD])
    · intro t ct hct
      exact absurd hct (by simp [lookupD])
  exact iterateD_inv (ucsStep g tmo)
    (SearchResult.mk [] 0 0 0 false "UCS" [] [], Outcome.fuelOut)
    (UcsInv g s0)
    (fun ro => ro.1.success = true → MinGoalLen g s0 ro.1.path.length)
    (by intro hcon; simp at hcon)
    (fun stx rr hi hstep => ucsStep_good g tmo s0 stx hi rr.1 rr.2 (by rw [hstep]))
    (fun stx stx' hi hstep => ucsStep_pres g tmo s0 stx stx' hi hstep)
    fuel (UcsSt.mk [(0, 0, s0, [])] [] 0 0 1 0 []) hinv h


end VW
